import Mathlib

/-!
# Bucket sort on `[0, 1)` (`src/sorting/bucket_sort.cc`)

A shallow embedding of `algorithm::sorting::BucketSort` and of the arithmetic it relies on.

* The template parameter `T` is an `ElemType`; the run-time type check admits `float` and
  `double`, for which the arithmetic is that of the IEEE 754 formats binary32 and binary64.
* A value of the element type is a `Value`: NaN, an infinity, or a finite value, which is
  modelled by its exact rational value (the sign of zero is invisible to the comparisons and
  conversions of the function).  The product `slots * array[i]` is rounded to the format of `T`
  (round to nearest, ties to even) before it is converted to `int`.
* `BucketSortInt` is the function of the source on an array of `Value`s.  Its counters `i`, `j`
  and `index` are 32-bit `int`s with arithmetic modulo `2 ^ 32`, converted to the 64-bit
  `size_t` where the source compares them with a length.  Every access `array[i]`,
  `buckets[bucket_index]`, `buckets[i][j]` and every write `array[index++] = ...` is
  bounds-checked; an access out of bounds and the conversion of NaN or an infinity to `int` are
  undefined behaviour (`OutcomeInt.undefined`).
* `BucketSort` is the same function restricted to arrays of finite values, with counters that
  do not overflow.  `BucketSortInt_eq_BucketSort` shows that it is what the source function does
  on the valid arrays of at most `2 ^ 31 - 1` elements; `BucketSortInt_run` says what the source
  function does on a valid array of any length: the first `2 ^ 31` elements are sorted, the
  others stay where they are.
-/

namespace algorithm.sorting

/-! ## Element types and floating-point formats -/

/-- Element types the template parameter `T` of `BucketSort` can be instantiated with. -/
inductive ElemType
  | float
  | double
  | longDouble
  | int
  deriving DecidableEq

/-- The trait `std::is_floating_point<T>`: the floating-point types of C++ are `float`, `double`
and `long double`. -/
def isFloatingPoint : ElemType → Bool
  | .float => true
  | .double => true
  | .longDouble => true
  | .int => false

/-- A binary floating-point format: `prec` significand bits (the hidden bit included) and the
range `emin .. emax` of the exponents of normal numbers. -/
structure Format where
  prec : Nat
  emin : Int
  emax : Int
  deriving DecidableEq

/-- IEEE 754 binary32, the format of `float`. -/
def binary32 : Format := ⟨24, -126, 127⟩

/-- IEEE 754 binary64, the format of `double`. -/
def binary64 : Format := ⟨53, -1022, 1023⟩

/-- The type check of `BucketSort`, `is_same<T, float>` or `is_same<T, double>`: the format of
`T` when `T` passes the check, `none` when it does not. -/
def floatFormat : ElemType → Option Format
  | .float => some binary32
  | .double => some binary64
  | _ => none

/-! ## Rounding to a format -/

/-- Number of binary digits of `n`, by repeated halving; `fuel` bounds the number of halvings and
`fuel = n` is always enough. -/
def bitLength : Nat → Nat → Nat
  | 0, _ => 0
  | fuel + 1, n => if n = 0 then 0 else bitLength fuel (n / 2) + 1

/-- Binary exponent of a rational: for `x ≠ 0` the integer `e` with `2 ^ e ≤ |x| < 2 ^ (e + 1)`. -/
def ilog2 (x : ℚ) : Int :=
  let k : Int := (bitLength x.num.natAbs x.num.natAbs : Int) - (bitLength x.den x.den : Int)
  if (2 : ℚ) ^ k ≤ |x| then k else k - 1

/-- Exponent of the unit in the last place of the format at `x`; below the normal range the
spacing of the subnormal numbers is used. -/
def ulpExponent (f : Format) (x : ℚ) : Int :=
  max (ilog2 x) f.emin - ((f.prec : Int) - 1)

/-- Nearest integer, a tie going to the even neighbour. -/
def roundHalfEven (y : ℚ) : Int :=
  if y - ⌊y⌋ < 1 / 2 then ⌊y⌋
  else if 1 / 2 < y - ⌊y⌋ then ⌊y⌋ + 1
  else if ⌊y⌋ % 2 = 0 then ⌊y⌋ else ⌊y⌋ + 1

/-- Rounding of a real number to the format, round to nearest with ties to even (overflow to
infinity is not modelled). -/
def roundNearestEven (f : Format) (x : ℚ) : ℚ :=
  roundHalfEven (x / (2 : ℚ) ^ ulpExponent f x) * (2 : ℚ) ^ ulpExponent f x

/-- Largest finite number of the format. -/
def maxFinite (f : Format) : ℚ :=
  ((2 : ℚ) ^ f.prec - 1) * (2 : ℚ) ^ (f.emax - ((f.prec : Int) - 1))

/-- The finite values of the format: the rationals that rounding leaves unchanged, up to the
largest finite number. -/
def Representable (f : Format) (x : ℚ) : Prop :=
  roundNearestEven f x = x ∧ |x| ≤ maxFinite f

instance (f : Format) (x : ℚ) : Decidable (Representable f x) := by
  unfold Representable
  infer_instance

/-- Value of a decimal literal such as `0.52` or `0.52f`: the number of the format nearest to
it. -/
def literal (f : Format) (q : ℚ) : ℚ := roundNearestEven f q

/-- Conversion of a floating-point value to `int`: truncation toward zero. -/
def truncToInt (x : ℚ) : Int := if 0 ≤ x then ⌊x⌋ else ⌈x⌉

/-! ## BucketSort -/

/-- `constexpr unsigned int slots = 10;` -/
def slots : Nat := 10

/-- `int bucket_index = slots * array[i];` : `slots` is converted to the element type, the
product is rounded to the format and the result is truncated to an `int`. -/
def bucket_index (f : Format) (element : ℚ) : Int :=
  truncToInt (roundNearestEven f ((slots : ℚ) * element))

/-- Message of the exception thrown by the type check. -/
def typeError : String := "Only accept floating point number array."

/-- Message of the exception thrown by the range check. -/
def rangeError : String :=
  "Only accept non-negative floating point number array in range [0, 1)."

/-- How a call of `BucketSort` on finite values ends, with the contents of the array at that
point. -/
inductive Outcome
  | returned (array : List ℚ)
  | thrown (what : String) (array : List ℚ)
  | undefined
  deriving DecidableEq

/-- The condition of the range check, `element < 0 || element >= 1`. -/
def outOfRange (element : ℚ) : Bool := decide (element < 0) || decide (element ≥ 1)

/-- `buckets[bucket_index].push_back(x)` for `0 ≤ bucket_index`; `none` when the index is past
the end of `buckets`. -/
def pushBack : List (List ℚ) → Nat → ℚ → Option (List (List ℚ))
  | [], _, _ => none
  | b :: bs, 0, x => some ((b ++ [x]) :: bs)
  | b :: bs, k + 1, x => (pushBack bs k x).map (b :: ·)

/-- The partition loop on finite values, with a counter that does not overflow: every element
of the array, in order, is appended to the bucket of its index; `none` when an index falls
outside the buckets.  `distributeInt` is the loop with the `int` counter of the source. -/
def distribute (f : Format) : List ℚ → List (List ℚ) → Option (List (List ℚ))
  | [], buckets => some buckets
  | x :: xs, buckets =>
    if bucket_index f x < 0 then none
    else (pushBack buckets (bucket_index f x).toNat x).bind (distribute f xs)

/-- `sort(buckets[i].begin(), buckets[i].end())`: ascending order.  The values are linearly
ordered, so every correct sort returns the same list; insertion sort is used here. -/
def sortBucket (bucket : List ℚ) : List ℚ := List.insertionSort (· ≤ ·) bucket

/-- The inner write-back loop on finite values, with counters that do not overflow:
`array[index++] = buckets[i][j]` for every `j`; `none` when a write falls past the end of the
array.  `writeBucketInt` is the loop with the `int` counters of the source. -/
def writeBucket : List ℚ → List ℚ × Nat → Option (List ℚ × Nat)
  | [], s => some s
  | x :: xs, (array, index) =>
    if index < array.length then writeBucket xs (array.set index x, index + 1) else none

/-- The outer write-back loop on finite values, with counters that do not overflow: each
bucket in turn is sorted and copied to the array.  `writeBackInt` is the loop with the `int`
counters of the source. -/
def writeBack : List (List ℚ) → List ℚ × Nat → Option (List ℚ × Nat)
  | [], s => some s
  | b :: bs, s => (writeBucket (sortBucket b) s).bind (writeBack bs)

/-- The function `BucketSort` of the source on an array of finite values of element type `T`,
with counters that do not overflow.  `BucketSortInt` is the function with the `int` counters of
the source, on all values of the element type. -/
def BucketSort (T : ElemType) (array : List ℚ) : Outcome :=
  match floatFormat T with
  | none => .thrown typeError array
  | some f =>
    if array.any outOfRange then .thrown rangeError array
    else
      match distribute f array (List.replicate slots []) with
      | none => .undefined
      | some buckets =>
        match writeBack buckets (array, 0) with
        | none => .undefined
        | some (array', _) => .returned array'

/-- Arrays of element type `T` that satisfy the precondition: every element is a finite value of
the format of `T` and lies in `[0, 1)`. -/
def ValidArray (f : Format) (array : List ℚ) : Prop :=
  ∀ x ∈ array, Representable f x ∧ 0 ≤ x ∧ x < 1

/-- Non-decreasing order: `result[i] ≤ result[j]` for all positions `i < j`. -/
def NonDecreasing (l : List ℚ) : Prop :=
  ∀ i j : Fin l.length, i < j → l.get i ≤ l.get j

/-- The formats of the two element types that pass the type check. -/
def IsFloatFormat (f : Format) : Prop := f = binary32 ∨ f = binary64

/-- Every element of bucket `j` has bucket index `j`. -/
def Indexed (f : Format) (buckets : List (List ℚ)) : Prop :=
  ∀ (j : Nat) (l : List ℚ), buckets[j]? = some l → ∀ y ∈ l, bucket_index f y = (j : Int)

instance (f : Format) (a : List ℚ) : Decidable (ValidArray f a) := by
  unfold ValidArray
  infer_instance

/-! ## Auxiliary definitions for the partition and write-back loops -/

/-- The elements of the array whose bucket index is `k`, in the order of the array. -/
def elementsOfBucket (f : Format) (array : List ℚ) (k : Nat) : List ℚ :=
  array.filter (fun x => decide (bucket_index f x = (k : Int)))

/-- Sorting the whole array directly in ascending order, `std::sort` over the full range, with
the sort that `BucketSort` uses on the buckets. -/
def sortWholeArray (array : List ℚ) : List ℚ := sortBucket array

/-- `INT_MAX`, the largest value of a 32-bit `int`. -/
def INT_MAX : Int := 2147483647

/-- The 32-bit `int` that holds the arithmetic result `n`, with arithmetic modulo `2 ^ 32`
(two's complement wrap-around; in C++ signed overflow is undefined, this is what it does in
practice). -/
def wrapInt32 (n : Int) : Int := (n + 2147483648) % 4294967296 - 2147483648

/-- Conversion of an `int` to the 64-bit `size_t`, as in the comparison `i < N`. -/
def toSizeT (i : Int) : Nat := (i % 18446744073709551616).toNat

/-! ## The source function, with `int` counters and all values of the element type -/

/-- Values of a floating-point element type: NaN, the two infinities and the finite values. -/
inductive Value
  | nan
  | negInf
  | posInf
  | finite (q : ℚ)
  deriving DecidableEq

/-- The condition of the range check, `element < 0 || element >= 1`, on any value of the element
type: a comparison with NaN is false. -/
def Value.outOfRange : Value → Bool
  | .nan => false
  | .negInf => true
  | .posInf => true
  | .finite q => algorithm.sorting.outOfRange q

/-- The value lies within `[0, 1)`. -/
def Value.InUnitInterval : Value → Prop
  | .finite q => 0 ≤ q ∧ q < 1
  | _ => False

/-- An array of finite values. -/
def values (array : List ℚ) : List Value := array.map Value.finite

/-- How a call of the function of the source ends, with the contents of the array at that
point. -/
inductive OutcomeInt
  | returned (array : List Value)
  | thrown (what : String) (array : List Value)
  | undefined
  deriving DecidableEq

/-- The partition loop `for (auto i = 0; i < N; i++)` with its `int` counter `i`, compared with
the `size_t` `N`: at most `fuel` evaluations of the loop condition, `none` when `fuel` runs out,
when an access is out of bounds or when `slots * array[i]` has no `int` value (NaN, infinity). -/
def distributeInt (f : Format) (array : List Value) :
    Nat → Int → List (List ℚ) → Option (List (List ℚ))
  | 0, _, _ => none
  | fuel + 1, i, buckets =>
    if toSizeT i < array.length then
      if i < 0 then none
      else
        match array[i.toNat]? with
        | some (.finite x) =>
          if bucket_index f x < 0 then none
          else (pushBack buckets (bucket_index f x).toNat x).bind
            (distributeInt f array fuel (wrapInt32 (i + 1)))
        | _ => none
    else some buckets

/-- The inner write-back loop `for (auto j = 0; j < buckets[i].size(); j++)
array[index++] = buckets[i][j];` with its `int` counters `j` and `index`.  The state is the
array, `index` and a log of the values of `index` at the writes; the log influences nothing. -/
def writeBucketInt (bucket : List ℚ) :
    Nat → Int → List Value × Int × List Int → Option (List Value × Int × List Int)
  | 0, _, _ => none
  | fuel + 1, j, (array, index, log) =>
    if toSizeT j < bucket.length then
      if j < 0 then none
      else
        match bucket[j.toNat]? with
        | none => none
        | some x =>
          if 0 ≤ index ∧ index < array.length then
            writeBucketInt bucket fuel (wrapInt32 (j + 1))
              (array.set index.toNat (.finite x), wrapInt32 (index + 1), log ++ [index])
          else none
    else some (array, index, log)

/-- The outer write-back loop `for (auto i = 0; i < slots; i++)` over the ten buckets, whose
counter takes the values `0 .. 10` only: each bucket in turn is sorted and copied to the array
by the inner loop, where `j` starts at `0`.  The inner loop evaluates its condition at most
`buckets[i].size() + 1` times. -/
def writeBackInt : List (List ℚ) → List Value × Int × List Int →
    Option (List Value × Int × List Int)
  | [], s => some s
  | b :: bs, s =>
    (writeBucketInt (sortBucket b) ((sortBucket b).length + 1) 0 s).bind (writeBackInt bs)

/-- The function `BucketSort` of the source, on an array of element type `T`, with the `int`
counters `i`, `j` and `index` of the source: the type check, the range check on every element,
the partition loop from `i = 0` with ten empty buckets (its condition is evaluated at most
`N + 1` times), and the write-back loops from `index = 0`. -/
def BucketSortInt (T : ElemType) (array : List Value) : OutcomeInt :=
  match floatFormat T with
  | none => .thrown typeError array
  | some f =>
    if array.any Value.outOfRange then .thrown rangeError array
    else
      match distributeInt f array (array.length + 1) 0 (List.replicate slots []) with
      | none => .undefined
      | some buckets =>
        match writeBackInt buckets (array, 0, []) with
        | none => .undefined
        | some (array', _, _) => .returned array'

/-- The outcome of the source function that corresponds to an outcome on finite values. -/
def Outcome.toInt : Outcome → OutcomeInt
  | .returned array => .returned (values array)
  | .thrown what array => .thrown what (values array)
  | .undefined => .undefined

/-! ## Binary exponent -/

theorem bitLength_spec : ∀ fuel n : Nat, n ≤ fuel →
    n < 2 ^ bitLength fuel n ∧ (0 < n → 2 ^ bitLength fuel n ≤ 2 * n)
  | 0, n, h => by
    have hn : n = 0 := Nat.le_zero.mp h
    subst hn
    simp [bitLength]
  | fuel + 1, n, h => by
    by_cases hn : n = 0
    · subst hn
      simp [bitLength]
    · have hle : n / 2 ≤ fuel := by omega
      obtain ⟨hlt, hge⟩ := bitLength_spec fuel (n / 2) hle
      simp only [bitLength, hn, if_false, pow_succ]
      refine ⟨by omega, fun _ => ?_⟩
      by_cases h2 : n / 2 = 0
      · have h1 : n = 1 := by omega
        subst h1
        cases fuel <;> simp [bitLength]
      · have := hge (Nat.pos_of_ne_zero h2)
        omega

theorem two_zpow_pos (e : Int) : (0 : ℚ) < (2 : ℚ) ^ e := zpow_pos (by norm_num) e

theorem ilog2_spec {x : ℚ} (hx : 0 < x) :
    (2 : ℚ) ^ ilog2 x ≤ x ∧ x < (2 : ℚ) ^ (ilog2 x + 1) := by
  have hnum : 0 < x.num := Rat.num_pos.mpr hx
  have hden : 0 < x.den := x.den_pos
  obtain ⟨ha1, ha2⟩ := bitLength_spec x.num.natAbs x.num.natAbs le_rfl
  obtain ⟨hb1, hb2⟩ := bitLength_spec x.den x.den le_rfl
  have ha2 := ha2 (by omega)
  have hb2 := hb2 hden
  set la := bitLength x.num.natAbs x.num.natAbs with hla
  set lb := bitLength x.den x.den with hlb
  have hxe : x = (x.num.natAbs : ℚ) / (x.den : ℚ) := by
    have h1 : ((x.num.natAbs : Int) : ℚ) = (x.num : ℚ) := by
      rw [Int.natAbs_of_nonneg hnum.le]
    have h2 : ((x.num.natAbs : Int) : ℚ) = (x.num.natAbs : ℚ) := Int.cast_natCast _
    rw [← h2, h1]
    exact (Rat.num_div_den x).symm
  have hdq : (0 : ℚ) < (x.den : ℚ) := by exact_mod_cast hden
  have ha1q : (x.num.natAbs : ℚ) < (2 : ℚ) ^ la := by exact_mod_cast ha1
  have ha2q : (2 : ℚ) ^ la ≤ 2 * (x.num.natAbs : ℚ) := by exact_mod_cast ha2
  have hb1q : (x.den : ℚ) < (2 : ℚ) ^ lb := by exact_mod_cast hb1
  have hb2q : (2 : ℚ) ^ lb ≤ 2 * (x.den : ℚ) := by exact_mod_cast hb2
  have hk : ∀ d : Int, (2 : ℚ) ^ ((la : Int) - (lb : Int) + d) =
      (2 : ℚ) ^ la / (2 : ℚ) ^ lb * (2 : ℚ) ^ d := by
    intro d
    rw [zpow_add₀ (by norm_num), zpow_sub₀ (by norm_num), zpow_natCast, zpow_natCast]
  have hpb : (0 : ℚ) < (2 : ℚ) ^ lb := by positivity
  -- the quotient lies strictly between `2 ^ (k - 1)` and `2 ^ (k + 1)`
  have hup : x < (2 : ℚ) ^ ((la : Int) - (lb : Int) + 1) := by
    rw [hk 1, zpow_one, hxe, div_mul_eq_mul_div, div_lt_div_iff₀ hdq hpb]
    nlinarith
  have hlo : (2 : ℚ) ^ ((la : Int) - (lb : Int) + (-1)) ≤ x := by
    rw [hk (-1), hxe, div_mul_eq_mul_div, div_le_div_iff₀ hpb hdq]
    have : (2 : ℚ) ^ (-1 : Int) = 1 / 2 := by norm_num
    rw [this]
    nlinarith
  unfold ilog2
  simp only [← hla, ← hlb, abs_of_pos hx]
  split_ifs with h
  · exact ⟨h, hup⟩
  · refine ⟨by simpa [sub_eq_add_neg] using hlo, ?_⟩
    rw [sub_add_cancel]
    exact lt_of_not_ge h

theorem ilog2_unique {x : ℚ} {e : Int} (hx : 0 < x) (h1 : (2 : ℚ) ^ e ≤ x)
    (h2 : x < (2 : ℚ) ^ (e + 1)) : ilog2 x = e := by
  obtain ⟨s1, s2⟩ := ilog2_spec hx
  have a : e < ilog2 x + 1 :=
    (zpow_lt_zpow_iff_right₀ (by norm_num : (1 : ℚ) < 2)).mp (lt_of_le_of_lt h1 s2)
  have b : ilog2 x < e + 1 :=
    (zpow_lt_zpow_iff_right₀ (by norm_num : (1 : ℚ) < 2)).mp (lt_of_le_of_lt s1 h2)
  omega

theorem ilog2_mono {x y : ℚ} (hx : 0 < x) (hxy : x ≤ y) : ilog2 x ≤ ilog2 y := by
  obtain ⟨s1, _⟩ := ilog2_spec hx
  obtain ⟨_, t2⟩ := ilog2_spec (lt_of_lt_of_le hx hxy)
  have : ilog2 x < ilog2 y + 1 :=
    (zpow_lt_zpow_iff_right₀ (by norm_num : (1 : ℚ) < 2)).mp
      (lt_of_le_of_lt (le_trans s1 hxy) t2)
  omega

/-! ## Rounding to the nearest integer -/

theorem roundHalfEven_bounds (y : ℚ) : ⌊y⌋ ≤ roundHalfEven y ∧ roundHalfEven y ≤ ⌊y⌋ + 1 := by
  unfold roundHalfEven
  split_ifs <;> omega

theorem roundHalfEven_intCast (n : Int) : roundHalfEven (n : ℚ) = n := by
  unfold roundHalfEven
  simp

theorem roundHalfEven_mono {x y : ℚ} (h : x ≤ y) : roundHalfEven x ≤ roundHalfEven y := by
  have hfl : ⌊x⌋ ≤ ⌊y⌋ := Int.floor_mono h
  rcases lt_or_eq_of_le hfl with hlt | heq
  · have := (roundHalfEven_bounds x).2
    have := (roundHalfEven_bounds y).1
    omega
  · have hfr : x - ⌊x⌋ ≤ y - ⌊y⌋ := by rw [heq]; linarith
    unfold roundHalfEven
    rw [heq]
    split_ifs <;> first | omega | (exfalso; linarith)

theorem roundHalfEven_le_of_le {x : ℚ} {n : Int} (h : x ≤ n) : roundHalfEven x ≤ n := by
  have := roundHalfEven_mono h
  rwa [roundHalfEven_intCast] at this

theorem le_roundHalfEven_of_le {x : ℚ} {n : Int} (h : (n : ℚ) ≤ x) : n ≤ roundHalfEven x := by
  have := roundHalfEven_mono h
  rwa [roundHalfEven_intCast] at this

/-- A power of two with a non-negative exponent is an integer. -/
theorem two_zpow_eq_intCast {k : Int} (hk : 0 ≤ k) :
    (2 : ℚ) ^ k = (((2 : Int) ^ k.toNat : Int) : ℚ) := by
  obtain ⟨n, rfl⟩ := Int.eq_ofNat_of_zero_le hk
  simp

/-- Rounding to a grid of spacing `2 ^ u` does not cross a power of two `2 ^ E` with `u ≤ E`:
from below. -/
theorem roundHalfEven_scaled_le {x : ℚ} {u E : Int} (hu : u ≤ E) (hx : x ≤ (2 : ℚ) ^ E) :
    (roundHalfEven (x / (2 : ℚ) ^ u) : ℚ) * (2 : ℚ) ^ u ≤ (2 : ℚ) ^ E := by
  have hpos := two_zpow_pos u
  have h1 : x / (2 : ℚ) ^ u ≤ (((2 : Int) ^ (E - u).toNat : Int) : ℚ) := by
    rw [← two_zpow_eq_intCast (by omega), zpow_sub₀ (by norm_num)]
    exact div_le_div_of_nonneg_right hx hpos.le
  have h2 : (roundHalfEven (x / (2 : ℚ) ^ u) : ℚ) ≤ (((2 : Int) ^ (E - u).toNat : Int) : ℚ) := by
    exact_mod_cast roundHalfEven_le_of_le h1
  calc (roundHalfEven (x / (2 : ℚ) ^ u) : ℚ) * (2 : ℚ) ^ u
      ≤ (((2 : Int) ^ (E - u).toNat : Int) : ℚ) * (2 : ℚ) ^ u :=
        mul_le_mul_of_nonneg_right h2 hpos.le
    _ = (2 : ℚ) ^ E := by
        rw [← two_zpow_eq_intCast (by omega), ← zpow_add₀ (by norm_num)]
        congr 1
        omega

/-- Rounding to a grid of spacing `2 ^ u` does not cross a power of two `2 ^ E` with `u ≤ E`:
from above. -/
theorem le_roundHalfEven_scaled {x : ℚ} {u E : Int} (hu : u ≤ E) (hx : (2 : ℚ) ^ E ≤ x) :
    (2 : ℚ) ^ E ≤ (roundHalfEven (x / (2 : ℚ) ^ u) : ℚ) * (2 : ℚ) ^ u := by
  have hpos := two_zpow_pos u
  have h1 : (((2 : Int) ^ (E - u).toNat : Int) : ℚ) ≤ x / (2 : ℚ) ^ u := by
    rw [← two_zpow_eq_intCast (by omega), zpow_sub₀ (by norm_num)]
    exact div_le_div_of_nonneg_right hx hpos.le
  have h2 : (((2 : Int) ^ (E - u).toNat : Int) : ℚ) ≤ (roundHalfEven (x / (2 : ℚ) ^ u) : ℚ) := by
    exact_mod_cast le_roundHalfEven_of_le h1
  calc (2 : ℚ) ^ E = (((2 : Int) ^ (E - u).toNat : Int) : ℚ) * (2 : ℚ) ^ u := by
        rw [← two_zpow_eq_intCast (by omega), ← zpow_add₀ (by norm_num)]
        congr 1
        omega
    _ ≤ (roundHalfEven (x / (2 : ℚ) ^ u) : ℚ) * (2 : ℚ) ^ u :=
        mul_le_mul_of_nonneg_right h2 hpos.le

/-! ## Rounding to a format -/

theorem roundNearestEven_nonneg (f : Format) {x : ℚ} (hx : 0 ≤ x) :
    0 ≤ roundNearestEven f x := by
  unfold roundNearestEven
  have hpos := two_zpow_pos (ulpExponent f x)
  have h0 : ((0 : Int) : ℚ) ≤ x / (2 : ℚ) ^ ulpExponent f x := by
    simpa using div_nonneg hx hpos.le
  have h1 : (0 : Int) ≤ roundHalfEven (x / (2 : ℚ) ^ ulpExponent f x) :=
    le_roundHalfEven_of_le h0
  have h2 : (0 : ℚ) ≤ (roundHalfEven (x / (2 : ℚ) ^ ulpExponent f x) : ℚ) := by
    exact_mod_cast h1
  exact mul_nonneg h2 hpos.le

theorem roundNearestEven_zero (f : Format) : roundNearestEven f 0 = 0 := by
  unfold roundNearestEven
  rw [zero_div]
  have : roundHalfEven 0 = 0 := by simpa using roundHalfEven_intCast 0
  rw [this]
  simp

/-- Rounding to a format is monotone. -/
theorem roundNearestEven_mono (f : Format) (hp : 0 < f.prec) {x y : ℚ} (hx : 0 ≤ x)
    (hxy : x ≤ y) : roundNearestEven f x ≤ roundNearestEven f y := by
  rcases eq_or_lt_of_le hx with h0 | hpos
  · rw [← h0, roundNearestEven_zero]
    exact roundNearestEven_nonneg f (le_trans hx hxy)
  have hy : 0 < y := lt_of_lt_of_le hpos hxy
  have hlog : ilog2 x ≤ ilog2 y := ilog2_mono hpos hxy
  have hu : ulpExponent f x ≤ ulpExponent f y := by
    unfold ulpExponent
    have := max_le_max hlog (le_refl f.emin)
    omega
  rcases eq_or_lt_of_le hu with heq | hlt
  · unfold roundNearestEven
    rw [heq]
    have hpw := two_zpow_pos (ulpExponent f y)
    have := roundHalfEven_mono (div_le_div_of_nonneg_right hxy hpw.le)
    have hc : (roundHalfEven (x / (2 : ℚ) ^ ulpExponent f y) : ℚ) ≤
        (roundHalfEven (y / (2 : ℚ) ^ ulpExponent f y) : ℚ) := by exact_mod_cast this
    exact mul_le_mul_of_nonneg_right hc hpw.le
  · -- the two numbers lie in different binades: a power of two separates the results
    have hE : max (ilog2 x) f.emin < max (ilog2 y) f.emin := by
      unfold ulpExponent at hlt
      omega
    have hEy : max (ilog2 y) f.emin = ilog2 y := by
      rcases max_cases (ilog2 y) f.emin with ⟨h, _⟩ | ⟨h, _⟩
      · exact h
      · have := le_max_right (ilog2 x) f.emin
        omega
    have hxE : x ≤ (2 : ℚ) ^ ilog2 y := by
      have h1 := (ilog2_spec hpos).2
      have h2 : ilog2 x + 1 ≤ ilog2 y := by
        have := le_max_left (ilog2 x) f.emin
        omega
      exact le_trans h1.le (zpow_le_zpow_right₀ (by norm_num) h2)
    have hyE : (2 : ℚ) ^ ilog2 y ≤ y := (ilog2_spec hy).1
    have hux : ulpExponent f x ≤ ilog2 y := by
      unfold ulpExponent
      omega
    have huy : ulpExponent f y ≤ ilog2 y := by
      unfold ulpExponent
      omega
    unfold roundNearestEven
    exact le_trans (roundHalfEven_scaled_le hux hxE) (le_roundHalfEven_scaled huy hyE)

/-! ## The bucket index -/

/-- The largest number of the format below one is `1 - 2 ^ (-prec)`. -/
theorem Representable.le_pred_one {f : Format} (hp : 0 < f.prec) (he : f.emin ≤ -1) {v : ℚ}
    (hv : Representable f v) (h1 : v < 1) : v ≤ 1 - (2 : ℚ) ^ (-(f.prec : Int)) := by
  have hhalf : (2 : ℚ) ^ (-(f.prec : Int)) ≤ 1 / 2 := by
    have : (2 : ℚ) ^ (-(f.prec : Int)) ≤ (2 : ℚ) ^ (-1 : Int) :=
      zpow_le_zpow_right₀ (by norm_num) (by omega)
    simpa using this
  rcases lt_or_le v (1 / 2) with hlt | hge
  · linarith
  · have hpos : 0 < v := by linarith
    have hlog : ilog2 v = -1 := by
      apply ilog2_unique hpos
      · simpa using hge
      · simpa using h1
    have hu : ulpExponent f v = -(f.prec : Int) := by
      unfold ulpExponent
      rw [hlog, max_eq_left he]
      omega
    have hr := hv.1
    unfold roundNearestEven at hr
    rw [hu] at hr
    set n := roundHalfEven (v / (2 : ℚ) ^ (-(f.prec : Int))) with hn
    have hpw : (2 : ℚ) ^ (-(f.prec : Int)) * (2 : ℚ) ^ f.prec = 1 := by
      rw [← zpow_natCast, ← zpow_add₀ (by norm_num)]
      simp
    have hpp : (0 : ℚ) < (2 : ℚ) ^ f.prec := by positivity
    have hnlt : (n : ℚ) < (((2 : Int) ^ f.prec : Int) : ℚ) := by
      push_cast
      have : (n : ℚ) * ((2 : ℚ) ^ (-(f.prec : Int)) * (2 : ℚ) ^ f.prec) < 1 * (2 : ℚ) ^ f.prec := by
        rw [← mul_assoc, hr]
        exact mul_lt_mul_of_pos_right h1 hpp
      simpa [hpw] using this
    have hnle : n ≤ (2 : Int) ^ f.prec - 1 := by
      have : n < (2 : Int) ^ f.prec := by exact_mod_cast hnlt
      omega
    have hnq : (n : ℚ) ≤ (2 : ℚ) ^ f.prec - 1 := by exact_mod_cast hnle
    calc v = (n : ℚ) * (2 : ℚ) ^ (-(f.prec : Int)) := hr.symm
      _ ≤ ((2 : ℚ) ^ f.prec - 1) * (2 : ℚ) ^ (-(f.prec : Int)) :=
          mul_le_mul_of_nonneg_right hnq (two_zpow_pos _).le
      _ = 1 - (2 : ℚ) ^ (-(f.prec : Int)) := by
          rw [sub_mul, one_mul, mul_comm, hpw]

theorem truncToInt_of_nonneg {x : ℚ} (hx : 0 ≤ x) : truncToInt x = ⌊x⌋ := by
  unfold truncToInt
  rw [if_pos hx]

theorem bucket_index_nonneg (f : Format) {v : ℚ} (hv : 0 ≤ v) : 0 ≤ bucket_index f v := by
  unfold bucket_index
  have h : 0 ≤ roundNearestEven f ((slots : ℚ) * v) :=
    roundNearestEven_nonneg f (mul_nonneg (by simp [slots]) hv)
  rw [truncToInt_of_nonneg h]
  exact Int.floor_nonneg.mpr h

/-- The bucket index is monotone in the value. -/
theorem bucket_index_mono (f : Format) (hp : 0 < f.prec) {v w : ℚ} (hv : 0 ≤ v) (hvw : v ≤ w) :
    bucket_index f v ≤ bucket_index f w := by
  unfold bucket_index
  have hs : (0 : ℚ) ≤ (slots : ℚ) := by simp [slots]
  have h0 : 0 ≤ (slots : ℚ) * v := mul_nonneg hs hv
  have hm : (slots : ℚ) * v ≤ (slots : ℚ) * w := mul_le_mul_of_nonneg_left hvw hs
  have hr := roundNearestEven_mono f hp h0 hm
  have hrv := roundNearestEven_nonneg f h0
  rw [truncToInt_of_nonneg hrv, truncToInt_of_nonneg (le_trans hrv hr)]
  exact Int.floor_mono hr

theorem IsFloatFormat.prec_pos {f : Format} (hf : IsFloatFormat f) : 0 < f.prec := by
  rcases hf with rfl | rfl <;> decide

theorem IsFloatFormat.emin_le {f : Format} (hf : IsFloatFormat f) : f.emin ≤ -1 := by
  rcases hf with rfl | rfl <;> decide

/-- The largest number below one of either format has bucket index 9. -/
theorem bucket_index_pred_one {f : Format} (hf : IsFloatFormat f) :
    bucket_index f (1 - (2 : ℚ) ^ (-(f.prec : Int))) = 9 := by
  rcases hf with rfl | rfl <;> decide!

theorem bucket_index_le_nine {f : Format} (hf : IsFloatFormat f) {v : ℚ}
    (hv : Representable f v) (h0 : 0 ≤ v) (h1 : v < 1) : bucket_index f v ≤ 9 := by
  have hle := hv.le_pred_one hf.prec_pos hf.emin_le h1
  have := bucket_index_mono f hf.prec_pos h0 hle
  rwa [bucket_index_pred_one hf] at this

/-- The bound on the index needs `v` to be a value of the format: the rational `1 - 2 ^ (-60)`
is below one, is not a `double`, and its product with `slots` rounds to ten. -/
theorem bucket_index_of_unrepresentable :
    ¬Representable binary64 (1 - (2 : ℚ) ^ (-60 : Int)) ∧
      bucket_index binary64 (1 - (2 : ℚ) ^ (-60 : Int)) = 10 := by
  decide!

theorem floatFormat_isFloatFormat {T : ElemType} {f : Format} (h : floatFormat T = some f) :
    IsFloatFormat f := by
  cases T <;> simp [floatFormat] at h
  · exact Or.inl h.symm
  · exact Or.inr h.symm

/-! ## The partition loop -/

theorem pushBack_isSome : ∀ (b : List (List ℚ)) (k : Nat) (x : ℚ), k < b.length →
    ∃ b', pushBack b k x = some b'
  | [], _, _, h => by simp at h
  | b :: bs, 0, x, _ => ⟨_, rfl⟩
  | b :: bs, k + 1, x, h => by
    obtain ⟨b', hb'⟩ := pushBack_isSome bs k x (by simpa using h)
    exact ⟨b :: b', by simp [pushBack, hb']⟩

theorem pushBack_length : ∀ (b : List (List ℚ)) (k : Nat) (x : ℚ) (b' : List (List ℚ)),
    pushBack b k x = some b' → b'.length = b.length
  | [], _, _, _, h => by simp [pushBack] at h
  | b :: bs, 0, x, b', h => by
    simp only [pushBack, Option.some.injEq] at h
    subst h
    simp
  | b :: bs, k + 1, x, b', h => by
    simp only [pushBack, Option.map_eq_some'] at h
    obtain ⟨c, hc, rfl⟩ := h
    simp [pushBack_length bs k x c hc]

theorem pushBack_perm : ∀ (b : List (List ℚ)) (k : Nat) (x : ℚ) (b' : List (List ℚ)),
    pushBack b k x = some b' → b'.flatten.Perm (x :: b.flatten)
  | [], _, _, _, h => by simp [pushBack] at h
  | b :: bs, 0, x, b', h => by
    simp only [pushBack, Option.some.injEq] at h
    subst h
    simp only [List.flatten_cons, List.append_assoc, List.singleton_append]
    exact List.perm_middle
  | b :: bs, k + 1, x, b', h => by
    simp only [pushBack, Option.map_eq_some'] at h
    obtain ⟨c, hc, rfl⟩ := h
    have ih := pushBack_perm bs k x c hc
    simp only [List.flatten_cons]
    exact (List.Perm.append_left b ih).trans List.perm_middle

/-- After a `push_back` every bucket is the old one, except bucket `k`, which got `x`. -/
theorem pushBack_getElem? : ∀ (b : List (List ℚ)) (k : Nat) (x : ℚ) (b' : List (List ℚ)),
    pushBack b k x = some b' → ∀ j : Nat,
      b'[j]? = if j = k then (b[j]?).map (· ++ [x]) else b[j]?
  | [], _, _, _, h => by simp [pushBack] at h
  | b :: bs, 0, x, b', h => by
    simp only [pushBack, Option.some.injEq] at h
    subst h
    intro j
    cases j <;> simp
  | b :: bs, k + 1, x, b', h => by
    simp only [pushBack, Option.map_eq_some'] at h
    obtain ⟨c, hc, rfl⟩ := h
    intro j
    cases j with
    | zero => simp
    | succ j => simpa using pushBack_getElem? bs k x c hc j

theorem indexed_replicate_nil (f : Format) (n : Nat) : Indexed f (List.replicate n []) := by
  intro j l hl y hy
  rw [List.getElem?_replicate] at hl
  split_ifs at hl
  simp only [Option.some.injEq] at hl
  subst hl
  simp at hy

theorem Indexed.pushBack {f : Format} {b b' : List (List ℚ)} {x : ℚ} (hb : Indexed f b)
    (h0 : 0 ≤ bucket_index f x) (h : pushBack b (bucket_index f x).toNat x = some b') :
    Indexed f b' := by
  intro j l hl y hy
  rw [pushBack_getElem? b _ x b' h j] at hl
  split_ifs at hl with hj
  · simp only [Option.map_eq_some'] at hl
    obtain ⟨l0, hl0, rfl⟩ := hl
    rcases List.mem_append.mp hy with hy | hy
    · exact hb j l0 hl0 y hy
    · simp only [List.mem_singleton] at hy
      subst hy
      rw [hj]
      omega
  · exact hb j l hl y hy

/-- What the partition loop computes when no index leaves the buckets. -/
theorem distribute_spec (f : Format) : ∀ (a : List ℚ) (b : List (List ℚ)),
    (∀ x ∈ a, 0 ≤ bucket_index f x ∧ bucket_index f x < b.length) → Indexed f b →
    ∃ b', distribute f a b = some b' ∧ b'.length = b.length ∧
      b'.flatten.Perm (b.flatten ++ a) ∧ Indexed f b'
  | [], b, _, hb => ⟨b, rfl, rfl, by simp, hb⟩
  | x :: xs, b, h, hb => by
    obtain ⟨h0, h1⟩ := h x (List.mem_cons_self _ _)
    obtain ⟨c, hc⟩ := pushBack_isSome b (bucket_index f x).toNat x (by omega)
    have hlen := pushBack_length b _ x c hc
    obtain ⟨b', hd, hl, hp, hi⟩ := distribute_spec f xs c
      (fun y hy => by
        rw [hlen]
        exact h y (List.mem_cons_of_mem _ hy))
      (hb.pushBack h0 hc)
    refine ⟨b', ?_, by rw [hl, hlen], ?_, hi⟩
    · simp only [distribute, not_lt.mpr h0, if_false, hc, Option.some_bind]
      exact hd
    · refine hp.trans ?_
      refine ((pushBack_perm b _ x c hc).append_right xs).trans ?_
      simp only [List.cons_append]
      exact List.perm_middle.symm

/-! ## The write-back loops -/

theorem sortBucket_perm (l : List ℚ) : (sortBucket l).Perm l :=
  List.perm_insertionSort _ l

theorem sortBucket_sorted (l : List ℚ) : (sortBucket l).Sorted (· ≤ ·) :=
  List.sorted_insertionSort _ l

theorem sortBucket_length (l : List ℚ) : (sortBucket l).length = l.length :=
  (sortBucket_perm l).length_eq

/-- Any correct sort agrees with `sortBucket`: a sorted permutation of a list is unique. -/
theorem sortBucket_unique {l l' : List ℚ} (hs : l'.Sorted (· ≤ ·)) (hp : l'.Perm l) :
    l' = sortBucket l :=
  List.eq_of_perm_of_sorted (hp.trans (sortBucket_perm l).symm) hs (sortBucket_sorted l)

/-- Copying `l` over the part `mid` of the array that starts at the current index. -/
theorem writeBucket_spec : ∀ (l pre mid post : List ℚ), mid.length = l.length →
    writeBucket l (pre ++ mid ++ post, pre.length) =
      some (pre ++ l ++ post, pre.length + l.length)
  | [], pre, mid, post, h => by
    have : mid = [] := List.length_eq_zero.mp h
    subst this
    simp [writeBucket]
  | x :: xs, pre, [], post, h => by simp at h
  | x :: xs, pre, m :: ms, post, h => by
    have hlen : ms.length = xs.length := by simpa using h
    have hset : (pre ++ (m :: ms) ++ post).set pre.length x = (pre ++ [x]) ++ ms ++ post := by
      simp [List.set_append]
    have hidx : pre.length < (pre ++ (m :: ms) ++ post).length := by
      simp only [List.length_append, List.length_cons]
      omega
    rw [writeBucket, if_pos hidx, hset]
    have := writeBucket_spec xs (pre ++ [x]) ms post hlen
    simp only [List.length_append, List.length_singleton] at this
    rw [this]
    simp
    omega

/-- Copying all buckets over the part `mid` of the array that starts at the current index. -/
theorem writeBack_spec : ∀ (buckets : List (List ℚ)) (pre mid post : List ℚ),
    mid.length = buckets.flatten.length →
    writeBack buckets (pre ++ mid ++ post, pre.length) =
      some (pre ++ (buckets.map sortBucket).flatten ++ post,
        pre.length + buckets.flatten.length)
  | [], pre, mid, post, h => by
    have : mid = [] := List.length_eq_zero.mp (by simpa using h)
    subst this
    simp [writeBack]
  | b :: bs, pre, mid, post, h => by
    have hsplit : mid = mid.take b.length ++ mid.drop b.length := (List.take_append_drop _ _).symm
    have hlen : mid.length = b.length + bs.flatten.length := by simpa using h
    have h1 : (mid.take b.length).length = (sortBucket b).length := by
      rw [List.length_take, sortBucket_length]
      omega
    have h2 : (mid.drop b.length).length = bs.flatten.length := by
      rw [List.length_drop]
      omega
    have harr : pre ++ mid ++ post =
        pre ++ mid.take b.length ++ (mid.drop b.length ++ post) := by
      simp only [List.append_assoc]
      rw [← List.append_assoc (mid.take b.length), List.take_append_drop]
    rw [writeBack, harr, writeBucket_spec (sortBucket b) pre _ _ h1]
    simp only [Option.some_bind]
    have harr2 : pre ++ sortBucket b ++ (mid.drop b.length ++ post) =
        (pre ++ sortBucket b) ++ mid.drop b.length ++ post := by simp
    have hl2 : pre.length + (sortBucket b).length = (pre ++ sortBucket b).length := by simp
    rw [harr2, hl2, writeBack_spec bs (pre ++ sortBucket b) _ post h2]
    simp [sortBucket_length]
    omega

/-! ## The whole function -/

theorem any_outOfRange_iff (a : List ℚ) :
    a.any outOfRange = true ↔ ∃ x ∈ a, x < 0 ∨ 1 ≤ x := by
  simp [List.any_eq_true, outOfRange]

theorem ValidArray.any_outOfRange {f : Format} {a : List ℚ} (h : ValidArray f a) :
    a.any outOfRange = false := by
  rw [Bool.eq_false_iff]
  intro hc
  obtain ⟨x, hx, hr⟩ := (any_outOfRange_iff a).mp hc
  obtain ⟨_, h0, h1⟩ := h x hx
  rcases hr with hr | hr <;> linarith

theorem nonDecreasing_iff_sorted (l : List ℚ) : NonDecreasing l ↔ l.Sorted (· ≤ ·) :=
  List.pairwise_iff_get.symm

/-- On a valid array the function returns, and the array then holds the sorted buckets of the
partition loop one after the other. -/
theorem BucketSort_valid {T : ElemType} {f : Format} (hT : floatFormat T = some f)
    {a : List ℚ} (ha : ValidArray f a) :
    ∃ buckets, distribute f a (List.replicate slots []) = some buckets ∧
      buckets.length = slots ∧ buckets.flatten.Perm a ∧ Indexed f buckets ∧
      BucketSort T a = .returned (buckets.map sortBucket).flatten := by
  have hf := floatFormat_isFloatFormat hT
  obtain ⟨b, hd, hl, hp, hi⟩ := distribute_spec f a (List.replicate slots [])
    (fun x hx => by
      obtain ⟨hr, h0, h1⟩ := ha x hx
      have := bucket_index_le_nine hf hr h0 h1
      simp only [List.length_replicate, slots]
      exact ⟨bucket_index_nonneg f h0, by omega⟩)
    (indexed_replicate_nil f slots)
  have hflat : (List.replicate slots ([] : List ℚ)).flatten = [] := by
    simp [slots]
  rw [hflat, List.nil_append] at hp
  refine ⟨b, hd, by simpa using hl, hp, hi, ?_⟩
  have hw := writeBack_spec b [] a [] hp.length_eq.symm
  simp only [List.nil_append, List.append_nil, List.length_nil] at hw
  simp only [BucketSort, hT, ha.any_outOfRange, hd, hw]
  simp

/-- The sorted buckets of a valid array, one after the other, are in ascending order. -/
theorem sorted_flatten_buckets {f : Format} (hf : IsFloatFormat f) {a : List ℚ}
    (ha : ValidArray f a) {buckets : List (List ℚ)} (hp : buckets.flatten.Perm a)
    (hi : Indexed f buckets) : ((buckets.map sortBucket).flatten).Sorted (· ≤ ·) := by
  unfold List.Sorted
  rw [List.pairwise_flatten]
  constructor
  · intro l hl
    obtain ⟨b, _, rfl⟩ := List.mem_map.mp hl
    exact sortBucket_sorted b
  · rw [List.pairwise_map, List.pairwise_iff_getElem]
    intro i j hi' hj' hij x hx y hy
    have hx' : x ∈ buckets[i] := (sortBucket_perm _).mem_iff.mp hx
    have hy' : y ∈ buckets[j] := (sortBucket_perm _).mem_iff.mp hy
    have hix := hi i buckets[i] (List.getElem?_eq_getElem hi') x hx'
    have hiy := hi j buckets[j] (List.getElem?_eq_getElem hj') y hy'
    have hya : y ∈ a := hp.mem_iff.mp (List.mem_flatten.mpr ⟨_, List.getElem_mem hj', hy'⟩)
    by_contra hlt
    have hle : y ≤ x := le_of_lt (not_le.mp hlt)
    have := bucket_index_mono f hf.prec_pos (ha y hya).2.1 hle
    omega

theorem BucketSort_sorted_perm {T : ElemType} {f : Format} (hT : floatFormat T = some f)
    {a : List ℚ} (ha : ValidArray f a) :
    ∃ result, BucketSort T a = .returned result ∧ result.Sorted (· ≤ ·) ∧ result.Perm a := by
  obtain ⟨b, _, _, hp, hi, hr⟩ := BucketSort_valid hT ha
  refine ⟨_, hr, sorted_flatten_buckets (floatFormat_isFloatFormat hT) ha hp hi, ?_⟩
  refine List.Perm.trans ?_ hp
  exact List.Perm.flatten_congr (List.forall₂_map_left_iff.mpr
    (List.forall₂_same.mpr fun l _ => sortBucket_perm l))

/-! ## The two checks -/

theorem literal_neg_tenth_neg {f : Format} (hf : IsFloatFormat f) : literal f (-0.1) < 0 := by
  rcases hf with rfl | rfl <;> decide!

theorem literal_one_ge {f : Format} (hf : IsFloatFormat f) : 1 ≤ literal f 1.0 := by
  rcases hf with rfl | rfl <;> decide!

theorem BucketSort_of_outOfRange {T : ElemType} {f : Format} (hT : floatFormat T = some f)
    {a : List ℚ} (h : a.any outOfRange = true) : BucketSort T a = .thrown rangeError a := by
  simp [BucketSort, hT, h]

theorem BucketSort_of_inRange {T : ElemType} {f : Format} (hT : floatFormat T = some f)
    {a : List ℚ} (h : a.any outOfRange = false) (w : String) (a' : List ℚ) :
    BucketSort T a ≠ .thrown w a' := by
  intro hc
  unfold BucketSort at hc
  simp only [hT, h, Bool.false_eq_true, if_false] at hc
  split at hc
  · simp at hc
  · split at hc <;> simp at hc

theorem BucketSort_of_not_float {T : ElemType} (h : floatFormat T = none) (a : List ℚ) :
    BucketSort T a = .thrown typeError a := by
  simp [BucketSort, h]

theorem floatFormat_eq_none_iff (T : ElemType) :
    floatFormat T = none ↔ T ≠ .float ∧ T ≠ .double := by
  cases T <;> simp [floatFormat]

theorem typeError_ne_rangeError : typeError ≠ rangeError := by decide

/-! ## The bucket index and the exact product -/

theorem roundNearestEven_small_nat :
    ∀ f ∈ [binary32, binary64], ∀ n ∈ List.range 11, roundNearestEven f (n : ℚ) = n := by
  decide!

theorem roundNearestEven_natCast {f : Format} (hf : IsFloatFormat f) {n : Nat} (hn : n ≤ 10) :
    roundNearestEven f (n : ℚ) = n := by
  apply roundNearestEven_small_nat f
  · rcases hf with rfl | rfl <;> simp
  · exact List.mem_range.mpr (by omega)

/-- A value at or above `k / 10` is never placed below bucket `k`. -/
theorem le_bucket_index {f : Format} (hf : IsFloatFormat f) {k : Nat} (hk : k ≤ 10) {v : ℚ}
    (hv : (k : ℚ) / 10 ≤ v) : (k : Int) ≤ bucket_index f v := by
  have hk0 : (0 : ℚ) ≤ (k : ℚ) := Nat.cast_nonneg k
  have hprod : (k : ℚ) ≤ (slots : ℚ) * v := by
    have : (slots : ℚ) = 10 := by simp [slots]
    rw [this]
    linarith
  have hr := roundNearestEven_mono f hf.prec_pos hk0 hprod
  rw [roundNearestEven_natCast hf hk] at hr
  unfold bucket_index
  rw [truncToInt_of_nonneg (le_trans hk0 hr)]
  exact Int.le_floor.mpr (by exact_mod_cast hr)

/-- A value in bucket `k` is below `(k + 1) / 10`. -/
theorem lt_of_bucket_index_eq {f : Format} (hf : IsFloatFormat f) {k : Nat} (hk : k < 10)
    {v : ℚ} (h : bucket_index f v = (k : Int)) : v < ((k : ℚ) + 1) / 10 := by
  by_contra hc
  have hge : ((k + 1 : Nat) : ℚ) / 10 ≤ v := by
    push_cast
    exact not_lt.mp hc
  have := le_bucket_index hf (by omega : k + 1 ≤ 10) hge
  rw [h] at this
  omega

theorem roundHalfEven_sub_le (y : ℚ) : |(roundHalfEven y : ℚ) - y| ≤ 1 / 2 := by
  have h1 : (⌊y⌋ : ℚ) ≤ y := Int.floor_le y
  have h2 : y < ⌊y⌋ + 1 := Int.lt_floor_add_one y
  unfold roundHalfEven
  rw [abs_le]
  split_ifs <;> push_cast <;> constructor <;> linarith

/-- Rounding to the format moves a number by at most half a unit in the last place. -/
theorem roundNearestEven_sub_le (f : Format) (x : ℚ) :
    |roundNearestEven f x - x| ≤ (2 : ℚ) ^ ulpExponent f x / 2 := by
  have hpos := two_zpow_pos (ulpExponent f x)
  have h := roundHalfEven_sub_le (x / (2 : ℚ) ^ ulpExponent f x)
  have hx : x / (2 : ℚ) ^ ulpExponent f x * (2 : ℚ) ^ ulpExponent f x = x :=
    div_mul_cancel₀ x hpos.ne'
  have hfac : roundNearestEven f x - x =
      ((roundHalfEven (x / (2 : ℚ) ^ ulpExponent f x) : ℚ) - x / (2 : ℚ) ^ ulpExponent f x) *
        (2 : ℚ) ^ ulpExponent f x := by
    rw [sub_mul, hx]
    rfl
  rw [hfac, abs_mul, abs_of_pos hpos]
  calc _ ≤ 1 / 2 * (2 : ℚ) ^ ulpExponent f x := mul_le_mul_of_nonneg_right h hpos.le
    _ = (2 : ℚ) ^ ulpExponent f x / 2 := by ring

/-- Below sixteen the unit in the last place is at most `2 ^ (4 - prec)`. -/
theorem ulpExponent_le_of_lt_sixteen {f : Format} (he : f.emin ≤ -1) {x : ℚ} (h0 : 0 < x)
    (h16 : x < 16) : ulpExponent f x ≤ 4 - (f.prec : Int) := by
  have hlog : ilog2 x < 4 := by
    have h1 := (ilog2_spec h0).1
    have h2 : (2 : ℚ) ^ ilog2 x < (2 : ℚ) ^ (4 : Int) := by
      have : (2 : ℚ) ^ (4 : Int) = 16 := by norm_num
      rw [this]
      exact lt_of_le_of_lt h1 h16
    exact (zpow_lt_zpow_iff_right₀ (by norm_num : (1 : ℚ) < 2)).mp h2
  unfold ulpExponent
  have := max_le (a := ilog2 x) (b := f.emin) (c := 3) (by omega) (by omega)
  omega

/-- A value in bucket `k` is above `k / 10 - 2 ^ (-prec)`. -/
theorem gt_of_bucket_index_eq {f : Format} (hf : IsFloatFormat f) {k : Nat} {v : ℚ}
    (h0 : 0 ≤ v) (h1 : v < 1) (h : bucket_index f v = (k : Int)) :
    (k : ℚ) / 10 - (2 : ℚ) ^ (-(f.prec : Int)) < v := by
  have hpw := two_zpow_pos (-(f.prec : Int))
  rcases Nat.eq_zero_or_pos k with rfl | hkpos
  · simp only [Nat.cast_zero, zero_div, zero_sub]
    linarith
  have hs : (slots : ℚ) = 10 := by simp [slots]
  have hx0 : 0 ≤ (slots : ℚ) * v := by rw [hs]; linarith
  have hrn := roundNearestEven_nonneg f hx0
  have hk : (k : ℚ) ≤ roundNearestEven f ((slots : ℚ) * v) := by
    unfold bucket_index at h
    rw [truncToInt_of_nonneg hrn] at h
    have := Int.floor_le (roundNearestEven f ((slots : ℚ) * v))
    rw [h] at this
    exact_mod_cast this
  have hxpos : 0 < (slots : ℚ) * v := by
    rcases eq_or_lt_of_le hx0 with h' | h'
    · rw [← h', roundNearestEven_zero] at hk
      have : (1 : ℚ) ≤ (k : ℚ) := by exact_mod_cast hkpos
      linarith
    · exact h'
  have hx16 : (slots : ℚ) * v < 16 := by rw [hs]; linarith
  have hu := ulpExponent_le_of_lt_sixteen hf.emin_le hxpos hx16
  have herr := roundNearestEven_sub_le f ((slots : ℚ) * v)
  have hule : (2 : ℚ) ^ ulpExponent f ((slots : ℚ) * v) ≤ (2 : ℚ) ^ (4 - (f.prec : Int)) :=
    zpow_le_zpow_right₀ (by norm_num) hu
  have h4 : (2 : ℚ) ^ (4 - (f.prec : Int)) = 16 * (2 : ℚ) ^ (-(f.prec : Int)) := by
    rw [sub_eq_add_neg, zpow_add₀ (by norm_num)]
    norm_num
  have hlow := (abs_le.mp herr).2
  rw [hs] at hk hlow hule
  rw [h4] at hule
  linarith

theorem bucket_index_eq_floor_computed (f : Format) {v : ℚ} (h0 : 0 ≤ v) :
    bucket_index f v = ⌊roundNearestEven f (v * 10)⌋ := by
  have hs : (slots : ℚ) * v = v * 10 := by
    simp only [slots]
    push_cast
    ring
  unfold bucket_index
  rw [hs, truncToInt_of_nonneg (roundNearestEven_nonneg f (by linarith))]

/-- The bucket index is the floor of the exact product, or one more. -/
theorem bucket_index_floor_exact {f : Format} (hf : IsFloatFormat f) {v : ℚ} (h0 : 0 ≤ v)
    (h1 : v < 1) : bucket_index f v = ⌊v * 10⌋ ∨ bucket_index f v = ⌊v * 10⌋ + 1 := by
  have hx0 : 0 ≤ v * 10 := by linarith
  have hfl0 : 0 ≤ ⌊v * 10⌋ := Int.floor_nonneg.mpr hx0
  have hfl9 : ⌊v * 10⌋ < 10 := Int.floor_lt.mpr (by push_cast; linarith)
  obtain ⟨n, hn⟩ := Int.eq_ofNat_of_zero_le hfl0
  have hlt : v * 10 < (n : ℚ) + 1 := by
    have := Int.lt_floor_add_one (v * 10)
    rw [hn] at this
    exact_mod_cast this
  have hle : (n : ℚ) ≤ v * 10 := by
    have := Int.floor_le (v * 10)
    rw [hn] at this
    exact_mod_cast this
  have hlo : (n : Int) ≤ bucket_index f v :=
    le_bucket_index hf (by omega : n ≤ 10) (by linarith)
  obtain ⟨k, hk⟩ := Int.eq_ofNat_of_zero_le (bucket_index_nonneg f h0)
  have hgt := gt_of_bucket_index_eq hf h0 h1 hk
  have hpw : (2 : ℚ) ^ (-(f.prec : Int)) ≤ 1 / 16 := by
    have h4 : (2 : ℚ) ^ (-(f.prec : Int)) ≤ (2 : ℚ) ^ (-4 : Int) :=
      zpow_le_zpow_right₀ (by norm_num) (by rcases hf with rfl | rfl <;> decide)
    have : (2 : ℚ) ^ (-4 : Int) = 1 / 16 := by norm_num
    rwa [this] at h4
  have hkn : (k : ℚ) < (n : ℚ) + 2 := by linarith
  have hkn' : k < n + 2 := by exact_mod_cast hkn
  rw [hn, hk]
  rw [hk] at hlo
  omega

/-! ## The contents of the buckets -/

theorem distribute_getElem? (f : Format) : ∀ (a : List ℚ) (b b' : List (List ℚ)),
    distribute f a b = some b' →
    ∀ j : Nat, b'[j]? = (b[j]?).map (· ++ elementsOfBucket f a j)
  | [], b, b', h, j => by
    simp only [distribute, Option.some.injEq] at h
    subst h
    cases hb : b[j]? <;> simp [elementsOfBucket]
  | x :: xs, b, b', h, j => by
    unfold distribute at h
    split_ifs at h with hneg
    cases hc : pushBack b (bucket_index f x).toNat x with
    | none => simp [hc] at h
    | some c =>
      rw [hc, Option.some_bind] at h
      rw [distribute_getElem? f xs c b' h j, pushBack_getElem? b _ x c hc j]
      have h0 : 0 ≤ bucket_index f x := not_lt.mp hneg
      by_cases hj : j = (bucket_index f x).toNat
      · have hidx : bucket_index f x = (j : Int) := by omega
        rw [if_pos hj]
        cases hb : b[j]? <;> simp [elementsOfBucket, hidx]
      · have hidx : ¬bucket_index f x = (j : Int) := by omega
        rw [if_neg hj]
        cases hb : b[j]? <;> simp [elementsOfBucket, hidx]

/-- After the partition loop on a valid array, bucket `k` holds the elements of the array with
bucket index `k`, in the order of the array. -/
theorem distribute_valid {f : Format} (hf : IsFloatFormat f) {a : List ℚ} (ha : ValidArray f a) :
    distribute f a (List.replicate slots []) =
      some ((List.range slots).map (elementsOfBucket f a)) := by
  obtain ⟨b, hd, hl, _, _⟩ := distribute_spec f a (List.replicate slots [])
    (fun x hx => by
      obtain ⟨hr, h0, h1⟩ := ha x hx
      have := bucket_index_le_nine hf hr h0 h1
      simp only [List.length_replicate, slots]
      exact ⟨bucket_index_nonneg f h0, by omega⟩)
    (indexed_replicate_nil f slots)
  rw [hd]
  congr 1
  apply List.ext_getElem?
  intro j
  rw [distribute_getElem? f a _ b hd j]
  by_cases hj : j < slots
  · simp [List.getElem?_replicate, hj, List.getElem?_range hj]
  · have hnone : (List.range slots)[j]? = none :=
      List.getElem?_eq_none (by simpa using not_lt.mp hj)
    simp [List.getElem?_replicate, hj, hnone]

theorem mem_elementsOfBucket {f : Format} {a : List ℚ} {k : Nat} {v : ℚ} :
    v ∈ elementsOfBucket f a k ↔ v ∈ a ∧ bucket_index f v = (k : Int) := by
  simp [elementsOfBucket]

theorem getElem?_buckets (f : Format) (a : List ℚ) {k : Nat} (hk : k < slots) :
    ((List.range slots).map (elementsOfBucket f a))[k]? = some (elementsOfBucket f a k) := by
  simp [List.getElem?_range hk]

theorem bucket_index_zero {f : Format} (hf : IsFloatFormat f) : bucket_index f 0 = 0 := by
  rcases hf with rfl | rfl <;> decide!

theorem bucket_index_literal_below_one {f : Format} (hf : IsFloatFormat f) :
    bucket_index f (literal f 0.999999) = 9 := by
  rcases hf with rfl | rfl <;> decide!

theorem bucket_index_eq_nine {f : Format} (hf : IsFloatFormat f) {v : ℚ}
    (hv : Representable f v) (h9 : 9 / 10 ≤ v) (h1 : v < 1) : bucket_index f v = 9 := by
  have hlo := le_bucket_index hf (by omega : 9 ≤ 10) (v := v) (by simpa using h9)
  have hhi := bucket_index_le_nine hf hv (by linarith) h1
  simp only [Nat.cast_ofNat] at hlo
  omega

theorem count_elementsOfBucket (f : Format) (a : List ℚ) (k : Nat) (v : ℚ) :
    (elementsOfBucket f a k).count v = if bucket_index f v = (k : Int) then a.count v else 0 := by
  unfold elementsOfBucket
  split_ifs with h
  · exact List.count_filter (by simpa using h)
  · apply List.count_eq_zero.mpr
    intro hmem
    exact h (by simpa using (List.mem_filter.mp hmem).2)

theorem validArray_of_perm {f : Format} {a a' : List ℚ} (hp : a'.Perm a) (ha : ValidArray f a) :
    ValidArray f a' :=
  fun x hx => ha x (hp.mem_iff.mp hx)

theorem BucketSort_eq_sortBucket {T : ElemType} {f : Format} (hT : floatFormat T = some f)
    {a : List ℚ} (ha : ValidArray f a) : BucketSort T a = .returned (sortBucket a) := by
  obtain ⟨r, hr, hs, hp⟩ := BucketSort_sorted_perm hT ha
  rw [hr, sortBucket_unique hs hp]

theorem elementsOfBucket_replicate (f : Format) (n : Nat) (v : ℚ) (k : Nat) :
    elementsOfBucket f (List.replicate n v) k =
      if bucket_index f v = (k : Int) then List.replicate n v else [] := by
  unfold elementsOfBucket
  rw [List.filter_replicate]
  split_ifs <;> simp_all

theorem validArray_replicate {f : Format} {v : ℚ} (hv : Representable f v) (h0 : 0 ≤ v)
    (h1 : v < 1) (n : Nat) : ValidArray f (List.replicate n v) := by
  intro x hx
  rw [List.eq_of_mem_replicate hx]
  exact ⟨hv, h0, h1⟩

/-! ## The `int` counters -/

theorem toSizeT_natCast {k : Nat} (h : (k : Int) ≤ INT_MAX) : toSizeT (k : Int) = k := by
  unfold toSizeT
  unfold INT_MAX at h
  omega

/-! ## The loops with `int` counters -/

theorem values_length (a : List ℚ) : (values a).length = a.length := List.length_map _ _

theorem values_append (a b : List ℚ) : values (a ++ b) = values a ++ values b :=
  List.map_append _ _ _

theorem values_injective : Function.Injective values :=
  List.map_injective_iff.mpr (fun _ _ h => Value.finite.inj h)

theorem wrapInt32_natCast {k : Nat} (h : k < 2147483648) : wrapInt32 (k : Int) = k := by
  unfold wrapInt32
  omega

theorem wrapInt32_natCast_wrap : wrapInt32 ((2147483648 : Nat) : Int) = -2147483648 := by
  decide

theorem toSizeT_wrapInt32_natCast {k : Nat} (h : k ≤ 2147483648) :
    toSizeT (wrapInt32 (k : Int)) = if k < 2147483648 then k else 18446744071562067968 := by
  unfold toSizeT wrapInt32
  split_ifs <;> omega

theorem wrapInt32_succ {k : Nat} (h : k < 2147483648) :
    wrapInt32 (wrapInt32 (k : Int) + 1) = wrapInt32 ((k + 1 : Nat) : Int) := by
  rw [wrapInt32_natCast h]
  push_cast
  rfl

theorem distributeInt_loop (f : Format) (array : List ℚ)
    (hN : array.length < 9223372036854775808) :
    ∀ (fuel k : Nat) (b : List (List ℚ)), k ≤ min array.length 2147483648 →
      min array.length 2147483648 - k < fuel →
      distributeInt f (values array) fuel (wrapInt32 (k : Int)) b =
        distribute f ((array.take (min array.length 2147483648)).drop k) b
  | 0, k, b, _, h => by omega
  | fuel + 1, k, b, hk, hfuel => by
    unfold distributeInt
    rw [toSizeT_wrapInt32_natCast (le_trans hk (Nat.min_le_right _ _)), values_length]
    rcases Nat.lt_or_ge k (min array.length 2147483648) with hlt | hge
    · have hkN : k < array.length := lt_of_lt_of_le hlt (Nat.min_le_left _ _)
      have hk31 : k < 2147483648 := lt_of_lt_of_le hlt (Nat.min_le_right _ _)
      have hktake : k < (array.take (min array.length 2147483648)).length := by
        rw [List.length_take]
        omega
      have hget : (values array)[(wrapInt32 (k : Int)).toNat]? = some (.finite array[k]) := by
        rw [wrapInt32_natCast hk31, Int.toNat_ofNat]
        simp [values, List.getElem?_eq_getElem hkN]
      have hdrop : (array.take (min array.length 2147483648)).drop k =
          array[k] :: (array.take (min array.length 2147483648)).drop (k + 1) := by
        rw [List.drop_eq_getElem_cons hktake, List.getElem_take]
      have hnn : ¬ wrapInt32 (k : Int) < 0 := by
        rw [wrapInt32_natCast hk31]
        omega
      rw [if_pos hk31, if_pos hkN, if_neg hnn, hget, hdrop]
      simp only [distribute]
      split_ifs with hneg
      · rfl
      · cases pushBack b (bucket_index f array[k]).toNat array[k] with
        | none => rfl
        | some c =>
          simp only [Option.some_bind]
          rw [wrapInt32_succ hk31]
          exact distributeInt_loop f array hN fuel (k + 1) c (by omega) (by omega)
    · have hnil : (array.take (min array.length 2147483648)).drop k = [] := by
        apply List.drop_eq_nil_of_le
        rw [List.length_take]
        omega
      have hexit : ¬ (if k < 2147483648 then k else 18446744071562067968) < array.length := by
        split_ifs <;> omega
      rw [if_neg hexit, hnil]
      rfl

/-- The partition loop with an `int` counter distributes the first `min N 2 ^ 31` elements. -/
theorem distributeInt_values (f : Format) (array : List ℚ)
    (hN : array.length < 9223372036854775808) (b : List (List ℚ)) :
    distributeInt f (values array) ((values array).length + 1) 0 b =
      distribute f (array.take (min array.length 2147483648)) b := by
  have h := distributeInt_loop f array hN (array.length + 1) 0 b (by omega)
    (by have := Nat.min_le_left array.length 2147483648; omega)
  rw [values_length]
  simpa [wrapInt32] using h

theorem writeBucketInt_loop (l : List ℚ) (post : List Value) :
    ∀ (fuel k : Nat) (pre mid : List Value) (log : List Int), k ≤ l.length →
      mid.length = l.length - k → pre.length + mid.length ≤ 2147483648 →
      l.length ≤ 2147483648 → l.length - k < fuel →
      writeBucketInt l fuel (wrapInt32 (k : Int))
          (pre ++ mid ++ post, wrapInt32 (pre.length : Int), log) =
        some (pre ++ values (l.drop k) ++ post,
          wrapInt32 ((pre.length + mid.length : Nat) : Int),
          log ++ (List.range' pre.length mid.length).map Int.ofNat)
  | 0, k, pre, mid, log, _, _, _, _, h => by omega
  | fuel + 1, k, pre, mid, log, hk, hmid, hsum, hl, hfuel => by
    unfold writeBucketInt
    rw [toSizeT_wrapInt32_natCast (le_trans hk hl)]
    rcases Nat.lt_or_ge k l.length with hlt | hge
    · have hk31 : k < 2147483648 := lt_of_lt_of_le hlt hl
      have hnn : ¬ wrapInt32 (k : Int) < 0 := by
        rw [wrapInt32_natCast hk31]
        omega
      have hget : l[(wrapInt32 (k : Int)).toNat]? = some l[k] := by
        rw [wrapInt32_natCast hk31, Int.toNat_ofNat]
        exact List.getElem?_eq_getElem hlt
      cases mid with
      | nil =>
        simp only [List.length_nil] at hmid
        omega
      | cons m ms =>
        have hms : ms.length = l.length - (k + 1) := by
          simp only [List.length_cons] at hmid
          omega
        have hpre : pre.length < 2147483648 := by
          simp only [List.length_cons] at hsum
          omega
        have hidx : wrapInt32 (pre.length : Int) = (pre.length : Int) := wrapInt32_natCast hpre
        have hin : 0 ≤ wrapInt32 (pre.length : Int) ∧
            wrapInt32 (pre.length : Int) < ((pre ++ m :: ms ++ post).length : Int) := by
          rw [hidx]
          simp only [List.length_append, List.length_cons]
          omega
        rw [if_pos hk31, if_pos hlt, if_neg hnn, hget]
        simp only []
        rw [if_pos hin]
        have hset : (pre ++ m :: ms ++ post).set (wrapInt32 (pre.length : Int)).toNat
            (Value.finite l[k]) = (pre ++ [Value.finite l[k]]) ++ ms ++ post := by
          rw [hidx, Int.toNat_ofNat]
          simp [List.set_append]
        have hnext : wrapInt32 (wrapInt32 (pre.length : Int) + 1) =
            wrapInt32 (((pre ++ [Value.finite l[k]]).length : Nat) : Int) := by
          rw [wrapInt32_succ hpre]
          simp
        rw [hset, hnext, wrapInt32_succ hk31, hidx]
        rw [writeBucketInt_loop l post fuel (k + 1) (pre ++ [Value.finite l[k]]) ms
          (log ++ [(pre.length : Int)]) (by omega) hms
          (by simp only [List.length_append, List.length_cons, List.length_nil] at hsum ⊢; omega)
          hl (by omega)]
        have hdrop : l.drop k = l[k] :: l.drop (k + 1) := List.drop_eq_getElem_cons hlt
        rw [hdrop]
        simp only [values, List.map_cons, List.length_append, List.length_cons, List.length_nil,
          List.append_assoc, List.cons_append, List.nil_append, List.range'_succ, List.map_cons,
          Option.some.injEq, Prod.mk.injEq, Int.ofNat_eq_coe, true_and]
        refine ⟨?_, trivial⟩
        have hadd : pre.length + (0 + 1) + ms.length = pre.length + (ms.length + 1) := by omega
        rw [hadd]
    · have hkl : k = l.length := le_antisymm hk hge
      have hnil : mid = [] := List.length_eq_zero.mp (by omega)
      have hexit : ¬ (if k < 2147483648 then k else 18446744071562067968) < l.length := by
        split_ifs <;> omega
      have hdrop : l.drop k = [] := List.drop_eq_nil_of_le hge
      rw [if_neg hexit, hnil, hdrop]
      simp [values]

theorem writeBackInt_spec (post : List Value) :
    ∀ (buckets : List (List ℚ)) (pre mid : List Value) (log : List Int),
      mid.length = buckets.flatten.length → pre.length + mid.length ≤ 2147483648 →
      writeBackInt buckets (pre ++ mid ++ post, wrapInt32 (pre.length : Int), log) =
        some (pre ++ values (buckets.map sortBucket).flatten ++ post,
          wrapInt32 ((pre.length + mid.length : Nat) : Int),
          log ++ (List.range' pre.length mid.length).map Int.ofNat)
  | [], pre, mid, log, h, _ => by
    have : mid = [] := List.length_eq_zero.mp (by simpa using h)
    subst this
    simp [writeBackInt, values]
  | b :: bs, pre, mid, log, h, hsum => by
    have hsplit : mid = mid.take b.length ++ mid.drop b.length := (List.take_append_drop _ _).symm
    have hlen : mid.length = b.length + bs.flatten.length := by simpa using h
    have htake : (mid.take b.length).length = (sortBucket b).length - 0 := by
      rw [List.length_take, sortBucket_length]
      omega
    have hdropl : (mid.drop b.length).length = bs.flatten.length := by
      rw [List.length_drop]
      omega
    have h0 : (0 : Int) = wrapInt32 ((0 : Nat) : Int) := by decide
    have hstate : pre ++ mid ++ post = pre ++ mid.take b.length ++ (mid.drop b.length ++ post) := by
      simp only [List.append_assoc]
      rw [← List.append_assoc (mid.take b.length), List.take_append_drop]
    unfold writeBackInt
    rw [hstate, h0, writeBucketInt_loop (sortBucket b) (mid.drop b.length ++ post)
      ((sortBucket b).length + 1) 0 pre (mid.take b.length) log (Nat.zero_le _) htake
      (by rw [htake, sortBucket_length]; omega) (by rw [sortBucket_length]; omega) (by omega)]
    simp only [Option.some_bind, List.drop_zero]
    have hpre : (pre ++ values (sortBucket b)).length = pre.length + (mid.take b.length).length := by
      rw [List.length_append, values_length, htake]
      rfl
    have hstate2 : pre ++ values (sortBucket b) ++ (mid.drop b.length ++ post) =
        (pre ++ values (sortBucket b)) ++ mid.drop b.length ++ post := by
      simp only [List.append_assoc]
    rw [hstate2, ← hpre, writeBackInt_spec post bs (pre ++ values (sortBucket b))
      (mid.drop b.length) _ hdropl (by rw [hpre, hdropl, htake, sortBucket_length]; omega)]
    have hb : (mid.take b.length).length = b.length := by
      rw [htake, sortBucket_length]
      rfl
    have hr : List.range' pre.length (b.length + bs.flatten.length) =
        List.range' pre.length b.length ++ List.range' (pre.length + b.length) bs.flatten.length := by
      rw [List.range'_append_1, Nat.add_comm]
    simp only [hpre, hb, hdropl, hr, List.map_cons, List.flatten_cons, values_append, hlen,
      List.append_assoc, List.map_append, Nat.add_assoc]

/-! ## The whole function with `int` counters -/

theorem take_min_length (a : List ℚ) (n : Nat) : a.take (min a.length n) = a.take n := by
  rcases Nat.le_total a.length n with h | h
  · rw [Nat.min_eq_left h, List.take_of_length_le h, List.take_of_length_le (le_refl _)]
  · rw [Nat.min_eq_right h]

theorem validArray_take {f : Format} {a : List ℚ} (ha : ValidArray f a) (n : Nat) :
    ValidArray f (a.take n) :=
  fun x hx => ha x (List.mem_of_mem_take hx)

theorem any_outOfRange_values (a : List ℚ) :
    (values a).any Value.outOfRange = a.any outOfRange := by
  induction a with
  | nil => rfl
  | cons x xs ih =>
    simp only [values, List.map_cons, List.any_cons] at ih ⊢
    rw [ih]
    rfl

theorem flatten_sorted_buckets {T : ElemType} {f : Format} (hT : floatFormat T = some f)
    {a : List ℚ} (ha : ValidArray f a) :
    (((List.range slots).map (elementsOfBucket f a)).map sortBucket).flatten = sortBucket a ∧
      ((List.range slots).map (elementsOfBucket f a)).flatten.length = a.length := by
  obtain ⟨buckets, hd, -, hp, -, hr⟩ := BucketSort_valid hT ha
  rw [distribute_valid (floatFormat_isFloatFormat hT) ha] at hd
  rw [BucketSort_eq_sortBucket hT ha] at hr
  have hb := Option.some.inj hd
  rw [hb]
  exact ⟨(Outcome.returned.inj hr).symm, hp.length_eq⟩

/-- What a call on a valid array does: the partition loop fills the buckets from the first
`2 ^ 31` elements, the write-back loops write these elements, sorted, to the positions
`0, 1, ...` in turn, and the elements from position `2 ^ 31` on stay where they are. -/
theorem BucketSortInt_run {T : ElemType} {f : Format} (hT : floatFormat T = some f)
    {a : List ℚ} (ha : ValidArray f a) (hN : a.length < 9223372036854775808) :
    distributeInt f (values a) ((values a).length + 1) 0 (List.replicate slots []) =
        some ((List.range slots).map (elementsOfBucket f (a.take 2147483648))) ∧
      writeBackInt ((List.range slots).map (elementsOfBucket f (a.take 2147483648)))
          (values a, 0, []) =
        some (values (sortBucket (a.take 2147483648) ++ a.drop 2147483648),
          wrapInt32 (((a.take 2147483648).length : Nat) : Int),
          (List.range' 0 (a.take 2147483648).length).map Int.ofNat) ∧
      BucketSortInt T (values a) =
        .returned (values (sortBucket (a.take 2147483648) ++ a.drop 2147483648)) := by
  have hf := floatFormat_isFloatFormat hT
  have hv := validArray_take ha 2147483648
  obtain ⟨hflat, hlen⟩ := flatten_sorted_buckets hT hv
  have hdist : distributeInt f (values a) ((values a).length + 1) 0 (List.replicate slots []) =
      some ((List.range slots).map (elementsOfBucket f (a.take 2147483648))) := by
    rw [distributeInt_values f a hN, take_min_length, distribute_valid hf hv]
  have hsplit : values a = [] ++ values (a.take 2147483648) ++ values (a.drop 2147483648) := by
    rw [List.nil_append, ← values_append, List.take_append_drop]
  have h0 : (0 : Int) = wrapInt32 ((([] : List Value).length : Nat) : Int) := by decide
  have hwrite : writeBackInt ((List.range slots).map (elementsOfBucket f (a.take 2147483648)))
      (values a, 0, []) =
      some (values (sortBucket (a.take 2147483648) ++ a.drop 2147483648),
        wrapInt32 (((a.take 2147483648).length : Nat) : Int),
        (List.range' 0 (a.take 2147483648).length).map Int.ofNat) := by
    have hmid : (values (a.take 2147483648)).length =
        ((List.range slots).map (elementsOfBucket f (a.take 2147483648))).flatten.length := by
      rw [values_length, hlen]
    have hsum : ([] : List Value).length + (values (a.take 2147483648)).length ≤ 2147483648 := by
      rw [values_length, List.length_take]
      simp only [List.length_nil]
      omega
    have h := writeBackInt_spec (values (a.drop 2147483648))
      ((List.range slots).map (elementsOfBucket f (a.take 2147483648))) []
      (values (a.take 2147483648)) [] hmid hsum
    rw [hflat] at h
    rw [hsplit, h0, h]
    simp only [List.nil_append, List.length_nil, Nat.zero_add, values_length, values_append]
  refine ⟨hdist, hwrite, ?_⟩
  unfold BucketSortInt
  simp only [hT, any_outOfRange_values, ha.any_outOfRange, Bool.false_eq_true, if_false, hdist,
    hwrite]

theorem take_of_le_INT_MAX {a : List ℚ} (h : (a.length : Int) ≤ INT_MAX) :
    a.take 2147483648 = a ∧ a.drop 2147483648 = [] := by
  have hle : a.length ≤ 2147483648 := by
    unfold INT_MAX at h
    omega
  exact ⟨List.take_of_length_le hle, List.drop_eq_nil_of_le hle⟩

/-- On arrays of at most `INT_MAX` elements the `int` counters do not overflow and the function
does what the function with exact counters does. -/
theorem BucketSortInt_eq_BucketSort {T : ElemType} {f : Format} (hT : floatFormat T = some f)
    {a : List ℚ} (ha : ValidArray f a) (hN : (a.length : Int) ≤ INT_MAX) :
    BucketSortInt T (values a) = (BucketSort T a).toInt ∧
      BucketSortInt T (values a) = .returned (values (sortBucket a)) := by
  have h63 : a.length < 9223372036854775808 := by
    unfold INT_MAX at hN
    omega
  obtain ⟨ht, hd⟩ := take_of_le_INT_MAX hN
  have h := (BucketSortInt_run hT ha h63).2.2
  rw [ht, hd, List.append_nil] at h
  rw [BucketSort_eq_sortBucket hT ha]
  exact ⟨h, h⟩

/-! ## Arrays of more than `2 ^ 31` elements -/

theorem sortBucket_replicate (n : Nat) (v : ℚ) :
    sortBucket (List.replicate n v) = List.replicate n v :=
  (sortBucket_unique (l := List.replicate n v)
    (List.pairwise_replicate.mpr (Or.inr le_rfl)) (List.Perm.refl _)).symm

theorem validArray_append {f : Format} {a b : List ℚ} (ha : ValidArray f a)
    (hb : ValidArray f b) : ValidArray f (a ++ b) := by
  intro x hx
  rcases List.mem_append.mp hx with h | h
  · exact ha x h
  · exact hb x h

theorem buckets_of_index_five {f : Format} {v : ℚ} (h : bucket_index f v = 5) (l : List ℚ) :
    ((List.range slots).map fun k : Nat => if bucket_index f v = (k : Int) then l else []) =
      [[], [], [], [], [], l, [], [], [], []] := by
  have hrange : List.range slots = [0, 1, 2, 3, 4, 5, 6, 7, 8, 9] := by decide
  rw [hrange, h]
  simp

theorem not_nonDecreasing_append {l : List ℚ} {x y : ℚ} (hx : x ∈ l) (hxy : y < x) (t : List ℚ) :
    ¬ NonDecreasing (l ++ y :: t) := by
  rw [nonDecreasing_iff_sorted]
  intro hs
  have := (List.pairwise_append.mp hs).2.2 x hx y (List.mem_cons_self _ _)
  exact absurd this (not_le.mpr hxy)

theorem mem_replicate_two_pow_31 (v : ℚ) : v ∈ List.replicate 2147483648 v :=
  List.mem_replicate.mpr ⟨by decide, rfl⟩

/-- An array that starts with `2 ^ 31` elements equal to `v`: the partition loop puts these in
the bucket of `v` and stops, the write-back loops write them to the positions `0 .. 2 ^ 31 - 1`,
`index` ends as `-2 ^ 31`, and the array is returned as it was. -/
theorem BucketSortInt_overflow {T : ElemType} {f : Format} (hT : floatFormat T = some f) {v : ℚ}
    (hv : Representable f v) (h0 : 0 ≤ v) (h1 : v < 1) {t : List ℚ} (ht : ValidArray f t)
    (hlen : t.length < 2147483648) :
    distributeInt f (values (List.replicate 2147483648 v ++ t))
        ((values (List.replicate 2147483648 v ++ t)).length + 1) 0 (List.replicate slots []) =
        some ((List.range slots).map fun k : Nat =>
          if bucket_index f v = (k : Int) then List.replicate 2147483648 v else []) ∧
      writeBackInt ((List.range slots).map fun k : Nat =>
          if bucket_index f v = (k : Int) then List.replicate 2147483648 v else [])
          (values (List.replicate 2147483648 v ++ t), 0, []) =
        some (values (List.replicate 2147483648 v ++ t), -2147483648,
          (List.range' 0 2147483648).map Int.ofNat) ∧
      BucketSortInt T (values (List.replicate 2147483648 v ++ t)) =
        .returned (values (List.replicate 2147483648 v ++ t)) := by
  have hrl : (List.replicate 2147483648 v).length = 2147483648 := List.length_replicate _ _
  have ha : ValidArray f (List.replicate 2147483648 v ++ t) :=
    validArray_append (validArray_replicate hv h0 h1 _) ht
  have h63 : (List.replicate 2147483648 v ++ t).length < 9223372036854775808 := by
    rw [List.length_append, hrl]
    omega
  have htake : (List.replicate 2147483648 v ++ t).take 2147483648 = List.replicate 2147483648 v :=
    List.take_left' hrl
  have hdrop : (List.replicate 2147483648 v ++ t).drop 2147483648 = t := List.drop_left' hrl
  have hb : (List.range slots).map (elementsOfBucket f (List.replicate 2147483648 v)) =
      (List.range slots).map fun k : Nat =>
        if bucket_index f v = (k : Int) then List.replicate 2147483648 v else [] :=
    List.map_congr_left fun k _ => elementsOfBucket_replicate f _ v k
  have h := BucketSortInt_run hT ha h63
  rw [htake, hdrop, sortBucket_replicate, hrl, hb, wrapInt32_natCast_wrap] at h
  exact h

/-! ## Valid arrays of any length -/

/-- On a valid array of at most `INT_MAX` elements no counter overflows: the partition loop
distributes every element, the write-back loops write the sorted array to the positions
`0 .. N - 1` in turn and `index` ends as `N`. -/
theorem BucketSortInt_run_small {T : ElemType} {f : Format} (hT : floatFormat T = some f)
    {a : List ℚ} (ha : ValidArray f a) (hN : (a.length : Int) ≤ INT_MAX) :
    distributeInt f (values a) ((values a).length + 1) 0 (List.replicate slots []) =
        some ((List.range slots).map (elementsOfBucket f a)) ∧
      writeBackInt ((List.range slots).map (elementsOfBucket f a)) (values a, 0, []) =
        some (values (sortBucket a), (a.length : Int), (List.range a.length).map Int.ofNat) ∧
      BucketSortInt T (values a) = .returned (values (sortBucket a)) := by
  have h63 : a.length < 9223372036854775808 := by
    unfold INT_MAX at hN
    omega
  have h31 : a.length < 2147483648 := by
    unfold INT_MAX at hN
    omega
  obtain ⟨ht, hd⟩ := take_of_le_INT_MAX hN
  have h := BucketSortInt_run hT ha h63
  rw [ht, hd, List.append_nil, wrapInt32_natCast h31, ← List.range_eq_range'] at h
  exact h

/-- A valid array in ascending order is returned as it is, whatever its length. -/
theorem BucketSortInt_sorted {T : ElemType} {f : Format} (hT : floatFormat T = some f)
    {a : List ℚ} (ha : ValidArray f a) (hN : a.length < 9223372036854775808)
    (hs : a.Sorted (· ≤ ·)) : BucketSortInt T (values a) = .returned (values a) := by
  have h := (BucketSortInt_run hT ha hN).2.2
  have hst : sortBucket (a.take 2147483648) = a.take 2147483648 :=
    (sortBucket_unique (List.Pairwise.sublist (List.take_sublist _ _) hs) (List.Perm.refl _)).symm
  rw [hst, List.take_append_drop] at h
  exact h

/-- The result on a valid array is a permutation of the array, whatever its length. -/
theorem BucketSortInt_perm {T : ElemType} {f : Format} (hT : floatFormat T = some f)
    {a : List ℚ} (ha : ValidArray f a) (hN : a.length < 9223372036854775808) :
    ∃ result, BucketSortInt T (values a) = .returned (values result) ∧ result.Perm a := by
  refine ⟨_, (BucketSortInt_run hT ha hN).2.2, ?_⟩
  have h := (sortBucket_perm (a.take 2147483648)).append_right (a.drop 2147483648)
  rwa [List.take_append_drop] at h

theorem flatten_sorted_of_index_five (l : List ℚ) :
    (([[], [], [], [], [], l, [], [], [], []] : List (List ℚ)).map sortBucket).flatten =
      sortBucket l := by
  simp [sortBucket]

theorem sum_length_of_index_five (l : List ℚ) :
    (([[], [], [], [], [], l, [], [], [], []] : List (List ℚ)).map List.length).sum =
      l.length := by
  simp

theorem append_singleton_ne (l : List ℚ) (x : ℚ) : l ++ [x] ≠ l := by
  intro h
  have := congrArg List.length h
  simp at this

/-! ## The range check on all values of the element type -/

/-- The range check on any values: `Value.outOfRange` decides it. -/
theorem BucketSortInt_rangeError {T : ElemType} {f : Format} (hT : floatFormat T = some f)
    (array : List Value) :
    (∃ array', BucketSortInt T array = .thrown rangeError array') ↔
      ∃ x ∈ array, x.outOfRange = true := by
  unfold BucketSortInt
  simp only [hT]
  constructor
  · rintro ⟨a', h⟩
    by_cases hany : array.any Value.outOfRange = true
    · exact List.any_eq_true.mp hany
    · rw [if_neg hany] at h
      split at h
      · exact absurd h (by simp)
      · split at h <;> exact absurd h (by simp)
  · intro h
    exact ⟨array, by rw [if_pos (List.any_eq_true.mpr h)]⟩

theorem BucketSortInt_not_thrown {T : ElemType} {f : Format} (hT : floatFormat T = some f)
    {array : List Value} (h : array.any Value.outOfRange = false) (w : String)
    (array' : List Value) : BucketSortInt T array ≠ .thrown w array' := by
  unfold BucketSortInt
  simp only [hT, h, Bool.false_eq_true, if_false]
  split
  · simp
  · split <;> simp

theorem Value.outOfRange_iff {x : Value} (hx : x ≠ .nan) :
    x.outOfRange = true ↔ ¬ x.InUnitInterval := by
  cases x with
  | nan => exact absurd rfl hx
  | negInf => simp [Value.outOfRange, Value.InUnitInterval]
  | posInf => simp [Value.outOfRange, Value.InUnitInterval]
  | finite q =>
    simp only [Value.outOfRange, algorithm.sorting.outOfRange, Value.InUnitInterval,
      Bool.or_eq_true,
      decide_eq_true_eq, not_and, not_lt, ge_iff_le]
    constructor
    · rintro (h | h) h0
      · exact absurd h0 (not_le.mpr h)
      · exact h
    · intro h
      rcases lt_or_le q 0 with h0 | h0
      · exact Or.inl h0
      · exact Or.inr (h h0)

theorem Value.outOfRange_of_inUnitInterval {x : Value} (hx : x.InUnitInterval) :
    x.outOfRange = false := by
  cases x with
  | nan => exact absurd hx (by simp [Value.InUnitInterval])
  | negInf => exact absurd hx (by simp [Value.InUnitInterval])
  | posInf => exact absurd hx (by simp [Value.InUnitInterval])
  | finite q =>
    have h : ¬ (Value.finite q).outOfRange = true :=
      fun h => (Value.outOfRange_iff (by simp)).mp h hx
    simpa using h

/-- A NaN at position 1 ends the partition loop in an access out of bounds, whatever the
number of iterations allowed. -/
theorem distributeInt_nan (f : Format) (x : ℚ) (fuel : Nat) (buckets : List (List ℚ)) :
    distributeInt f [.finite x, .nan] fuel 0 buckets = none := by
  cases fuel with
  | zero => rfl
  | succ m =>
    unfold distributeInt
    have h0 : toSizeT 0 < ([Value.finite x, Value.nan] : List Value).length := by
      show toSizeT 0 < 2
      decide
    rw [if_pos h0, if_neg (by decide)]
    simp only [Int.toNat_zero, List.getElem?_cons_zero]
    split_ifs with hneg
    · rfl
    · cases hp : pushBack buckets (bucket_index f x).toNat x with
      | none => rfl
      | some c =>
        simp only [Option.some_bind]
        cases m with
        | zero => rfl
        | succ k =>
          unfold distributeInt
          have h1 : toSizeT (wrapInt32 (0 + 1)) <
              ([Value.finite x, Value.nan] : List Value).length := by
            show toSizeT (wrapInt32 (0 + 1)) < 2
            decide
          have h2 : ¬ wrapInt32 (0 + 1) < 0 := by decide
          have h3 : (wrapInt32 (0 + 1)).toNat = 1 := by decide
          rw [if_pos h1, if_neg h2, h3]
          rfl

theorem flatten_buckets_perm {T : ElemType} {f : Format} (hT : floatFormat T = some f)
    {a : List ℚ} (ha : ValidArray f a) :
    ((List.range slots).map (elementsOfBucket f a)).flatten.Perm a := by
  obtain ⟨buckets, hd, -, hp, -, -⟩ := BucketSort_valid hT ha
  rw [distribute_valid (floatFormat_isFloatFormat hT) ha] at hd
  rw [Option.some.inj hd]
  exact hp

/-! ## The claims -/

/-- C1: on every array of `float` or `double` of at most `2 ^ 31 - 1` elements, all in `[0, 1)`,
the function returns normally and leaves the array in non-decreasing order.  On the `float` array
of `2 ^ 31 + 1` elements that holds `0.5` at the positions `0 .. 2 ^ 31 - 1` and `0.25` at the
last position, a valid array, the `int` counter `i` wraps after `2 ^ 31` elements: the function
returns the array as it was, with `0.5` before `0.25`. -/
theorem BucketSortInt_nonDecreasing :
    (∀ (T : ElemType) (f : Format), floatFormat T = some f → ∀ array : List ℚ,
      ValidArray f array → (array.length : Int) ≤ INT_MAX →
      ∃ result, BucketSortInt T (values array) = .returned (values result) ∧
        NonDecreasing result) ∧
      ValidArray binary32 (List.replicate 2147483648 (1 / 2) ++ [1 / 4]) ∧
      BucketSortInt .float (values (List.replicate 2147483648 (1 / 2) ++ [1 / 4])) =
        .returned (values (List.replicate 2147483648 (1 / 2) ++ [1 / 4])) ∧
      ¬ NonDecreasing (List.replicate 2147483648 (1 / 2) ++ [1 / 4]) := by
  refine ⟨fun T f hT array h hN => ⟨_, (BucketSortInt_run_small hT h hN).2.2,
    (nonDecreasing_iff_sorted _).mpr (sortBucket_sorted array)⟩, ?_, ?_, ?_⟩
  · exact validArray_append (validArray_replicate (by decide!) (by decide!) (by decide!) _)
      (by decide!)
  · exact (BucketSortInt_overflow (T := .float) rfl (by decide!) (by decide!) (by decide!)
      (by decide!) (by decide)).2.2
  · exact not_nonDecreasing_append (mem_replicate_two_pow_31 _) (by decide!) []

/-- C3: for `float` and `double` the function throws the range error if and only if the array
holds an element with `element < 0 || element >= 1`; for every value other than NaN this is the
same as not lying in `[0, 1)`; an array with `-0.1` or `1.0` throws, an array whose elements all
lie in `[0, 1)` throws nothing.  NaN does not lie in `[0, 1)` and passes the check: on the
`double` array `{0.5, NaN}` the function throws nothing, and the partition loop, however long it
may run, ends in an access out of bounds. -/
theorem BucketSortInt_rangeError_iff :
    (∀ (T : ElemType) (f : Format), floatFormat T = some f → ∀ array : List Value,
      ((∃ array', BucketSortInt T array = .thrown rangeError array') ↔
        ∃ x ∈ array, x.outOfRange = true) ∧
      (∀ x : Value, x ≠ .nan → (x.outOfRange = true ↔ ¬ x.InUnitInterval)) ∧
      (Value.finite (literal f (-0.1)) ∈ array ∨ Value.finite (literal f 1.0) ∈ array →
        ∃ array', BucketSortInt T array = .thrown rangeError array') ∧
      ((∀ x ∈ array, x.InUnitInterval) →
        ∀ w array', BucketSortInt T array ≠ .thrown w array')) ∧
      ¬ Value.nan.InUnitInterval ∧ Value.nan.outOfRange = false ∧
      BucketSortInt .double [.finite (1 / 2), .nan] = .undefined ∧
      ∀ fuel : Nat,
        distributeInt binary64 [.finite (1 / 2), .nan] fuel 0 (List.replicate slots []) = none := by
  refine ⟨fun T f hT array => ⟨BucketSortInt_rangeError hT array,
    fun x hx => Value.outOfRange_iff hx, ?_, fun h w array' => ?_⟩,
    fun h => h, rfl, ?_, fun fuel => distributeInt_nan _ _ fuel _⟩
  · have hf := floatFormat_isFloatFormat hT
    rintro (h | h)
    · refine (BucketSortInt_rangeError hT array).mpr ⟨_, h, ?_⟩
      simp [Value.outOfRange, outOfRange, literal_neg_tenth_neg hf]
    · refine (BucketSortInt_rangeError hT array).mpr ⟨_, h, ?_⟩
      simp [Value.outOfRange, outOfRange, literal_one_ge hf]
  · refine BucketSortInt_not_thrown hT ?_ w array'
    rw [Bool.eq_false_iff]
    intro hany
    obtain ⟨x, hx, hout⟩ := List.any_eq_true.mp hany
    rw [Value.outOfRange_of_inUnitInterval (h x hx)] at hout
    exact absurd hout (by decide)
  · unfold BucketSortInt
    have hany : ([Value.finite (1 / 2), Value.nan] : List Value).any Value.outOfRange = false := by
      decide!
    simp only [floatFormat, hany, Bool.false_eq_true, if_false, distributeInt_nan]

/-- C4: whenever `BucketSort` throws, the exception is the type error or the range error and the
array is exactly as it was before the call: both checks come before the first write. -/
theorem BucketSort_thrown_unchanged (T : ElemType) (array : List ℚ) (w : String)
    (array' : List ℚ) (h : BucketSort T array = .thrown w array') :
    array' = array ∧ (w = typeError ∨ w = rangeError) := by
  unfold BucketSort at h
  split at h
  · simp only [Outcome.thrown.injEq] at h
    exact ⟨h.2.symm, Or.inl h.1.symm⟩
  · split at h
    · simp only [Outcome.thrown.injEq] at h
      exact ⟨h.2.symm, Or.inr h.1.symm⟩
    · split at h
      · simp at h
      · split at h <;> simp at h

theorem BucketSort_thrown_unchanged_witness :
    BucketSort .double [3 / 4, -1, 1 / 4] = .thrown rangeError [3 / 4, -1, 1 / 4] ∧
      (([3 / 4, -1, 1 / 4] : List ℚ) = [3 / 4, -1, 1 / 4] ∧
        (rangeError = typeError ∨ rangeError = rangeError)) :=
  ⟨by decide!, BucketSort_thrown_unchanged .double [3 / 4, -1, 1 / 4] rangeError
    [3 / 4, -1, 1 / 4] (by decide!)⟩

/-- C5, as stated, fails: `long double` is a floating-point type, and `BucketSort` on an array
of `long double` throws the type error. -/
theorem BucketSort_longDouble_typeError :
    ¬((∃ array', BucketSort .longDouble [1 / 2] = .thrown typeError array') ↔
      isFloatingPoint .longDouble = false) := by
  intro h
  have := h.mp ⟨[1 / 2], rfl⟩
  simp [isFloatingPoint] at this

/-- C5, amended: `BucketSort` throws the type error if and only if the element type is neither
`float` nor `double`, whatever the array holds; the type check comes first, so that such an array
with out-of-range values reports the type error and not the range error, and the two errors have
different messages. -/
theorem BucketSort_typeError_iff (T : ElemType) (array : List ℚ) :
    ((∃ array', BucketSort T array = .thrown typeError array') ↔
        (T ≠ .float ∧ T ≠ .double)) ∧
      ((T ≠ .float ∧ T ≠ .double) →
        BucketSort T array = .thrown typeError array ∧
          ∀ array', BucketSort T array ≠ .thrown rangeError array') ∧
      typeError ≠ rangeError := by
  have hthrow : (T ≠ .float ∧ T ≠ .double) → BucketSort T array = .thrown typeError array :=
    fun h => BucketSort_of_not_float ((floatFormat_eq_none_iff T).mpr h) array
  refine ⟨⟨fun ⟨a', h⟩ => ?_, fun h => ⟨array, hthrow h⟩⟩, fun h => ⟨hthrow h, fun a' hc => ?_⟩,
    typeError_ne_rangeError⟩
  · rw [← floatFormat_eq_none_iff]
    cases hT : floatFormat T with
    | none => rfl
    | some f =>
      exfalso
      by_cases hany : array.any outOfRange = true
      · rw [BucketSort_of_outOfRange hT hany] at h
        simp only [Outcome.thrown.injEq] at h
        exact typeError_ne_rangeError h.1.symm
      · exact BucketSort_of_inRange hT (by simpa using hany) _ _ h
  · rw [hthrow h] at hc
    simp only [Outcome.thrown.injEq] at hc
    exact typeError_ne_rangeError hc.1

/-- C7: on the empty array of `float` or `double`, `BucketSort` throws nothing and returns with
the array still empty. -/
theorem BucketSort_empty :
    BucketSort .float [] = .returned [] ∧ BucketSort .double [] = .returned [] := by
  constructor <;> rfl

/-- C8: for every value `v` of `float` or `double` with `0 ≤ v < 1` the bucket index lies in
`[0, 9]`, so that the access `buckets[bucket_index]` into ten buckets is within bounds. -/
theorem bucket_index_in_bounds (T : ElemType) (f : Format) (hT : floatFormat T = some f) (v : ℚ)
    (hv : Representable f v) (h0 : 0 ≤ v) (h1 : v < 1) :
    0 ≤ bucket_index f v ∧ bucket_index f v ≤ 9 ∧
      ∀ buckets : List (List ℚ), buckets.length = slots →
        ∃ buckets', pushBack buckets (bucket_index f v).toNat v = some buckets' := by
  have hlo := bucket_index_nonneg f h0
  have hhi := bucket_index_le_nine (floatFormat_isFloatFormat hT) hv h0 h1
  refine ⟨hlo, hhi, fun b hb => pushBack_isSome b _ v ?_⟩
  rw [hb]
  simp only [slots]
  omega

theorem bucket_index_in_bounds_witness :
    floatFormat .float = some binary32 ∧ Representable binary32 (literal binary32 0.999999) ∧
      (0 : ℚ) ≤ literal binary32 0.999999 ∧ literal binary32 0.999999 < 1 ∧
      (0 ≤ bucket_index binary32 (literal binary32 0.999999) ∧
        bucket_index binary32 (literal binary32 0.999999) ≤ 9 ∧
        ∀ buckets : List (List ℚ), buckets.length = slots →
          ∃ buckets', pushBack buckets
            (bucket_index binary32 (literal binary32 0.999999)).toNat
            (literal binary32 0.999999) = some buckets') :=
  ⟨rfl, by decide!, by decide!, by decide!,
    bucket_index_in_bounds .float binary32 rfl (literal binary32 0.999999) (by decide!)
      (by decide!) (by decide!)⟩

/-- C9: on the array `[0.52, 0.12, 0.86, 0.29, 0.46, 0.4, 0.18, 0.6]` of the doc comment, of
`float` or of `double`, the partition loop fills the buckets as documented and `BucketSort`
leaves `[0.12, 0.18, 0.29, 0.4, 0.46, 0.52, 0.6, 0.86]` in the array. -/
theorem BucketSort_doc_example :
    (∀ f ∈ [binary32, binary64],
      distribute f ([0.52, 0.12, 0.86, 0.29, 0.46, 0.4, 0.18, 0.6].map (literal f))
          (List.replicate slots []) =
        some ([[], [0.12, 0.18], [0.29], [], [0.46, 0.4], [0.52], [0.6], [], [0.86], []].map
          (List.map (literal f)))) ∧
      BucketSort .float ([0.52, 0.12, 0.86, 0.29, 0.46, 0.4, 0.18, 0.6].map (literal binary32)) =
        .returned ([0.12, 0.18, 0.29, 0.4, 0.46, 0.52, 0.6, 0.86].map (literal binary32)) ∧
      BucketSort .double ([0.52, 0.12, 0.86, 0.29, 0.46, 0.4, 0.18, 0.6].map (literal binary64)) =
        .returned ([0.12, 0.18, 0.29, 0.4, 0.46, 0.52, 0.6, 0.86].map (literal binary64)) := by
  decide!

/-- C10: on the arrays of `main`, `[0.52, 0.44, 0.68, 0.95, 0.1, 0.12, 0.32, 0.59]` of `float`
and of `double`, `BucketSort` leaves `[0.1, 0.12, 0.32, 0.44, 0.52, 0.59, 0.68, 0.95]`. -/
theorem BucketSort_main_example :
    BucketSort .float
        ([0.52, 0.44, 0.68, 0.95, 0.1, 0.12, 0.32, 0.59].map (literal binary32)) =
        .returned ([0.1, 0.12, 0.32, 0.44, 0.52, 0.59, 0.68, 0.95].map (literal binary32)) ∧
      BucketSort .double
        ([0.52, 0.44, 0.68, 0.95, 0.1, 0.12, 0.32, 0.59].map (literal binary64)) =
        .returned ([0.1, 0.12, 0.32, 0.44, 0.52, 0.59, 0.68, 0.95].map (literal binary64)) := by
  decide!

/-- C11: the value `0` has bucket index 0 and every value `v` of `float` or `double` with
`0.9 ≤ v < 1`, such as `0.999999`, bucket index 9; in a valid array of at most `2 ^ 31 - 1`
elements such values are placed in buckets 0 and 9 and the array is sorted like any other.  On
the `float` array of `2 ^ 31 + 1` elements that holds `0.5` at the positions `0 .. 2 ^ 31 - 1`
and `0` at the last position, the `int` counter `i` wraps before the last element: bucket 0
stays empty and the function returns the array as it was, with `0.5` before `0`. -/
theorem BucketSortInt_boundary_values :
    (∀ (T : ElemType) (f : Format), floatFormat T = some f →
      bucket_index f 0 = 0 ∧
      (∀ v : ℚ, Representable f v → 9 / 10 ≤ v → v < 1 → bucket_index f v = 9) ∧
      bucket_index f (literal f 0.999999) = 9 ∧
      ∀ array : List ℚ, ValidArray f array → (array.length : Int) ≤ INT_MAX →
        ∃ buckets, distributeInt f (values array) ((values array).length + 1) 0
            (List.replicate slots []) = some buckets ∧
          (0 ∈ array → ∃ b, buckets[0]? = some b ∧ (0 : ℚ) ∈ b) ∧
          (∀ v ∈ array, 9 / 10 ≤ v → ∃ b, buckets[9]? = some b ∧ v ∈ b) ∧
          ∃ result, BucketSortInt T (values array) = .returned (values result) ∧
            NonDecreasing result ∧ result.Perm array) ∧
      ValidArray binary32 (List.replicate 2147483648 (1 / 2) ++ [0]) ∧
      distributeInt binary32 (values (List.replicate 2147483648 (1 / 2) ++ [0]))
          ((values (List.replicate 2147483648 (1 / 2) ++ [0])).length + 1) 0
          (List.replicate slots []) =
        some [[], [], [], [], [], List.replicate 2147483648 (1 / 2), [], [], [], []] ∧
      BucketSortInt .float (values (List.replicate 2147483648 (1 / 2) ++ [0])) =
        .returned (values (List.replicate 2147483648 (1 / 2) ++ [0])) ∧
      ¬ NonDecreasing (List.replicate 2147483648 (1 / 2) ++ [0]) := by
  have hover := BucketSortInt_overflow (T := .float) (f := binary32) (v := 1 / 2) (t := [0]) rfl
    (by decide!) (by decide!) (by decide!) (by decide!) (by decide)
  rw [buckets_of_index_five (by decide!)] at hover
  refine ⟨fun T f hT => ?_, ?_, hover.1, hover.2.2, ?_⟩
  · have hf := floatFormat_isFloatFormat hT
    refine ⟨bucket_index_zero hf, fun v hv h9 h1 => bucket_index_eq_nine hf hv h9 h1,
      bucket_index_literal_below_one hf, fun array ha hN => ?_⟩
    obtain ⟨hd, -, hr⟩ := BucketSortInt_run_small hT ha hN
    refine ⟨_, hd, fun h0 => ?_, fun v hv h9 => ?_, _, hr,
      (nonDecreasing_iff_sorted _).mpr (sortBucket_sorted array), sortBucket_perm array⟩
    · refine ⟨_, getElem?_buckets f array (by decide), mem_elementsOfBucket.mpr ⟨h0, ?_⟩⟩
      simpa using bucket_index_zero hf
    · refine ⟨_, getElem?_buckets f array (by decide), mem_elementsOfBucket.mpr ⟨hv, ?_⟩⟩
      simpa using bucket_index_eq_nine hf (ha v hv).1 h9 (ha v hv).2.2
  · exact validArray_append (validArray_replicate (by decide!) (by decide!) (by decide!) _)
      (by decide!)
  · exact not_nonDecreasing_append (mem_replicate_two_pow_31 _) (by decide!) []

/-- C12, as stated, fails: the `double` nearest to `0.3` lies below `3 / 10`, so that the floor
of its exact product with ten is 2, while the product computed in `double` is `3.0` and the
bucket index is 3. -/
theorem bucket_index_ne_floor_exact :
    literal binary64 0.3 = 5404319552844595 / 18014398509481984 ∧
      Representable binary64 (literal binary64 0.3) ∧
      (0 : ℚ) ≤ literal binary64 0.3 ∧ literal binary64 0.3 < 1 ∧
      ⌊literal binary64 0.3 * 10⌋ = 2 ∧
      roundNearestEven binary64 ((slots : ℚ) * literal binary64 0.3) = 3 ∧
      bucket_index binary64 (literal binary64 0.3) = 3 ∧
      bucket_index binary64 (literal binary64 0.3) ≠ ⌊literal binary64 0.3 * 10⌋ := by
  decide!

/-- C12, amended: for every `v` with `0 ≤ v < 1` the bucket index, the truncation toward zero of
the product `slots * v` as computed in the element type, equals the floor of that computed
product; it is the floor of the exact product `v * 10` or that floor plus one. -/
theorem bucket_index_eq_floor (T : ElemType) (f : Format) (hT : floatFormat T = some f) (v : ℚ)
    (h0 : 0 ≤ v) (h1 : v < 1) :
    bucket_index f v = ⌊roundNearestEven f (v * 10)⌋ ∧
      (bucket_index f v = ⌊v * 10⌋ ∨ bucket_index f v = ⌊v * 10⌋ + 1) :=
  ⟨bucket_index_eq_floor_computed f h0,
    bucket_index_floor_exact (floatFormat_isFloatFormat hT) h0 h1⟩

theorem bucket_index_eq_floor_witness :
    floatFormat .double = some binary64 ∧ (0 : ℚ) ≤ literal binary64 0.3 ∧
      literal binary64 0.3 < 1 ∧
      (bucket_index binary64 (literal binary64 0.3) =
          ⌊roundNearestEven binary64 (literal binary64 0.3 * 10)⌋ ∧
        (bucket_index binary64 (literal binary64 0.3) = ⌊literal binary64 0.3 * 10⌋ ∨
          bucket_index binary64 (literal binary64 0.3) = ⌊literal binary64 0.3 * 10⌋ + 1)) :=
  ⟨rfl, by decide!, by decide!,
    bucket_index_eq_floor .double binary64 rfl (literal binary64 0.3) (by decide!) (by decide!)⟩

/-- C13, as stated, fails: the largest `double` below `0.9` is a valid element, it lies in
`[8 / 10, 9 / 10)` and below the `double` nearest to `0.9`, and the partition loop puts it in
bucket 9 (its product with ten, computed in `double`, is a tie that rounds to `9.0`). -/
theorem distributeInt_below_boundary :
    ValidArray binary64 [8106479329266892 / 9007199254740992] ∧
      distributeInt binary64 (values [8106479329266892 / 9007199254740992])
          ((values [8106479329266892 / 9007199254740992]).length + 1) 0
          (List.replicate slots []) =
        some [[], [], [], [], [], [], [], [], [], [8106479329266892 / 9007199254740992]] ∧
      ((8 : ℚ) / 10 ≤ 8106479329266892 / 9007199254740992 ∧
        (8106479329266892 : ℚ) / 9007199254740992 < 9 / 10) ∧
      ¬((9 : ℚ) / 10 ≤ 8106479329266892 / 9007199254740992) ∧
      (8106479329266892 : ℚ) / 9007199254740992 < literal binary64 0.9 := by
  decide!

/-- C13, amended: after the partition loop on a valid array of `float` or `double` of at most
`2 ^ 31 - 1` elements, bucket `k` holds exactly the elements of the array whose bucket index is
`k`, each as often as in the array, and nothing else; each of them lies in the interval
`(k / 10 - 2 ^ (-prec), (k + 1) / 10)`, and an element `v ≥ k / 10` of the array is never in a
bucket before `k`. -/
theorem distributeInt_buckets (T : ElemType) (f : Format) (hT : floatFormat T = some f)
    (array : List ℚ) (h : ValidArray f array) (hN : (array.length : Int) ≤ INT_MAX) :
    ∃ buckets, distributeInt f (values array) ((values array).length + 1) 0
        (List.replicate slots []) = some buckets ∧
      buckets.length = slots ∧
      ∀ k : Nat, k < slots → ∃ b, buckets[k]? = some b ∧
        (∀ v : ℚ, v ∈ b ↔ v ∈ array ∧ bucket_index f v = (k : Int)) ∧
        (∀ v : ℚ, b.count v = if bucket_index f v = (k : Int) then array.count v else 0) ∧
        (∀ v ∈ b, (k : ℚ) / 10 - (2 : ℚ) ^ (-(f.prec : Int)) < v ∧ v < ((k : ℚ) + 1) / 10) ∧
        (∀ v ∈ array, (k : ℚ) / 10 ≤ v → (k : Int) ≤ bucket_index f v) := by
  have hf := floatFormat_isFloatFormat hT
  refine ⟨_, (BucketSortInt_run_small hT h hN).1, by simp, fun k hk => ?_⟩
  refine ⟨_, getElem?_buckets f array hk, fun v => mem_elementsOfBucket,
    count_elementsOfBucket f array k, fun v hv => ?_, fun v _ hv =>
      le_bucket_index hf (by simp only [slots] at hk; omega) hv⟩
  obtain ⟨hmem, hidx⟩ := mem_elementsOfBucket.mp hv
  obtain ⟨_, h0, h1⟩ := h v hmem
  exact ⟨gt_of_bucket_index_eq hf h0 h1 hidx,
    lt_of_bucket_index_eq hf (by simpa [slots] using hk) hidx⟩

theorem distributeInt_buckets_witness :
    floatFormat .double = some binary64 ∧
      ValidArray binary64 [8106479329266892 / 9007199254740992, 1 / 4] ∧
      (([8106479329266892 / 9007199254740992, 1 / 4] : List ℚ).length : Int) ≤ INT_MAX ∧
      ∃ buckets, distributeInt binary64 (values [8106479329266892 / 9007199254740992, 1 / 4])
          ((values [8106479329266892 / 9007199254740992, 1 / 4]).length + 1) 0
          (List.replicate slots []) = some buckets ∧
        buckets.length = slots ∧
        ∀ k : Nat, k < slots → ∃ b, buckets[k]? = some b ∧
          (∀ v : ℚ, v ∈ b ↔ v ∈ ([8106479329266892 / 9007199254740992, 1 / 4] : List ℚ) ∧
            bucket_index binary64 v = (k : Int)) ∧
          (∀ v : ℚ, b.count v = if bucket_index binary64 v = (k : Int)
            then ([8106479329266892 / 9007199254740992, 1 / 4] : List ℚ).count v else 0) ∧
          (∀ v ∈ b, (k : ℚ) / 10 - (2 : ℚ) ^ (-(binary64.prec : Int)) < v ∧
            v < ((k : ℚ) + 1) / 10) ∧
          (∀ v ∈ ([8106479329266892 / 9007199254740992, 1 / 4] : List ℚ),
            (k : ℚ) / 10 ≤ v → (k : Int) ≤ bucket_index binary64 v) :=
  ⟨rfl, by decide!, by decide,
    distributeInt_buckets .double binary64 rfl [8106479329266892 / 9007199254740992, 1 / 4]
      (by decide!) (by decide)⟩

/-- C14: for every valid array of `float` or `double` of at most `2 ^ 31 - 1` elements the
final array is the concatenation, in the order of the bucket indices 0, 1, ..., 9, of the sorted
contents of the ten buckets of the partition loop, written to the positions `0 .. N - 1` in
turn.  On the `float` array of `2 ^ 31 + 1` elements that holds `0.5` at the positions
`0 .. 2 ^ 31 - 1` and `0.25` at the last position, the `int` counter `i` wraps before the last
element: the ten buckets hold `2 ^ 31` elements, their concatenation is written to the positions
`0 .. 2 ^ 31 - 1`, and the final array, which keeps `0.25` at the last position, is not that
concatenation. -/
theorem BucketSortInt_concatenation :
    (∀ (T : ElemType) (f : Format), floatFormat T = some f → ∀ array : List ℚ,
      ValidArray f array → (array.length : Int) ≤ INT_MAX →
      ∃ b0 b1 b2 b3 b4 b5 b6 b7 b8 b9 : List ℚ,
        distributeInt f (values array) ((values array).length + 1) 0
          (List.replicate slots []) = some [b0, b1, b2, b3, b4, b5, b6, b7, b8, b9] ∧
        ∃ result, BucketSortInt T (values array) = .returned (values result) ∧
          result = sortBucket b0 ++ (sortBucket b1 ++ (sortBucket b2 ++ (sortBucket b3 ++
            (sortBucket b4 ++ (sortBucket b5 ++ (sortBucket b6 ++ (sortBucket b7 ++
            (sortBucket b8 ++ sortBucket b9)))))))) ∧
          (∀ b ∈ [b0, b1, b2, b3, b4, b5, b6, b7, b8, b9],
            (sortBucket b).Sorted (· ≤ ·) ∧ (sortBucket b).Perm b) ∧
          result.length = array.length ∧
          writeBackInt [b0, b1, b2, b3, b4, b5, b6, b7, b8, b9] (values array, 0, []) =
            some (values result, (array.length : Int),
              (List.range array.length).map Int.ofNat)) ∧
      distributeInt binary32 (values (List.replicate 2147483648 (1 / 2) ++ [1 / 4]))
          ((values (List.replicate 2147483648 (1 / 2) ++ [1 / 4])).length + 1) 0
          (List.replicate slots []) =
        some [[], [], [], [], [], List.replicate 2147483648 (1 / 2), [], [], [], []] ∧
      writeBackInt [[], [], [], [], [], List.replicate 2147483648 (1 / 2), [], [], [], []]
          (values (List.replicate 2147483648 (1 / 2) ++ [1 / 4]), 0, []) =
        some (values (List.replicate 2147483648 (1 / 2) ++ [1 / 4]), -2147483648,
          (List.range' 0 2147483648).map Int.ofNat) ∧
      BucketSortInt .float (values (List.replicate 2147483648 (1 / 2) ++ [1 / 4])) =
        .returned (values (List.replicate 2147483648 (1 / 2) ++ [1 / 4])) ∧
      (([[], [], [], [], [], List.replicate 2147483648 (1 / 2), [], [], [], []] :
          List (List ℚ)).map sortBucket).flatten = List.replicate 2147483648 (1 / 2) ∧
      List.replicate 2147483648 (1 / 2) ++ [1 / 4] ≠
        (([[], [], [], [], [], List.replicate 2147483648 (1 / 2), [], [], [], []] :
          List (List ℚ)).map sortBucket).flatten := by
  have hover := BucketSortInt_overflow (T := .float) (f := binary32) (v := 1 / 2) (t := [1 / 4])
    rfl (by decide!) (by decide!) (by decide!) (by decide!) (by decide)
  rw [buckets_of_index_five (by decide!)] at hover
  have hflat := flatten_sorted_of_index_five (List.replicate 2147483648 (1 / 2))
  rw [sortBucket_replicate] at hflat
  refine ⟨fun T f hT array h hN => ?_, hover.1, hover.2.1, hover.2.2, hflat, ?_⟩
  · obtain ⟨hd, hw, hr⟩ := BucketSortInt_run_small hT h hN
    obtain ⟨hflat', -⟩ := flatten_sorted_buckets hT h
    have hrange : List.range slots = [0, 1, 2, 3, 4, 5, 6, 7, 8, 9] := by decide
    rw [hrange] at hd hw hflat'
    simp only [List.map_cons, List.map_nil] at hd hw hflat'
    refine ⟨_, _, _, _, _, _, _, _, _, _, hd, _, hr, ?_,
      fun b _ => ⟨sortBucket_sorted b, sortBucket_perm b⟩, sortBucket_length array, hw⟩
    rw [← hflat']
    simp
  · rw [hflat]
    exact append_singleton_ne _ _

/-- C15, as stated, fails: the `double` nearest to `0.6` lies below `6 / 10`, so that the floor
of its exact product with ten is 5; an array of two such elements is put in bucket 6, and bucket
5 stays empty. -/
theorem distributeInt_all_equal_other_bucket :
    literal binary64 0.6 = 5404319552844595 / 9007199254740992 ∧
      ValidArray binary64 [literal binary64 0.6, literal binary64 0.6] ∧
      ⌊literal binary64 0.6 * 10⌋ = 5 ∧
      distributeInt binary64 (values [literal binary64 0.6, literal binary64 0.6])
          ((values [literal binary64 0.6, literal binary64 0.6]).length + 1) 0
          (List.replicate slots []) =
        some [[], [], [], [], [], [], [literal binary64 0.6, literal binary64 0.6],
          [], [], []] := by
  decide!

/-- C15, amended: for an array of `float` or `double` of at most `2 ^ 31 - 1` elements, all
equal to one value `v` in `[0, 1)`, the partition loop puts the `n` elements in the single bucket
whose index is the bucket index of `v`, the floor of the product `v * 10` as computed in the
element type (the floor of the exact product, or one more), and leaves the other nine buckets
empty; the function returns the array unchanged. -/
theorem BucketSortInt_all_equal (T : ElemType) (f : Format) (hT : floatFormat T = some f) (v : ℚ)
    (n : Nat) (hv : Representable f v) (h0 : 0 ≤ v) (h1 : v < 1) (hn : (n : Int) ≤ INT_MAX) :
    distributeInt f (values (List.replicate n v)) ((values (List.replicate n v)).length + 1) 0
        (List.replicate slots []) =
        some ((List.range slots).map fun k : Nat =>
          if bucket_index f v = (k : Int) then List.replicate n v else []) ∧
      (0 ≤ bucket_index f v ∧ bucket_index f v ≤ 9) ∧
      bucket_index f v = ⌊roundNearestEven f (v * 10)⌋ ∧
      (bucket_index f v = ⌊v * 10⌋ ∨ bucket_index f v = ⌊v * 10⌋ + 1) ∧
      BucketSortInt T (values (List.replicate n v)) = .returned (values (List.replicate n v)) := by
  have hf := floatFormat_isFloatFormat hT
  have ha := validArray_replicate hv h0 h1 n
  have hlen : ((List.replicate n v).length : Int) ≤ INT_MAX := by
    rw [List.length_replicate]
    exact hn
  obtain ⟨hd, -, hr⟩ := BucketSortInt_run_small hT ha hlen
  refine ⟨?_, ⟨bucket_index_nonneg f h0, bucket_index_le_nine hf hv h0 h1⟩,
    bucket_index_eq_floor_computed f h0, bucket_index_floor_exact hf h0 h1, ?_⟩
  · rw [hd]
    congr 1
    exact List.map_congr_left fun k _ => elementsOfBucket_replicate f n v k
  · rw [hr, sortBucket_replicate]

theorem BucketSortInt_all_equal_witness :
    floatFormat .double = some binary64 ∧ Representable binary64 (literal binary64 0.6) ∧
      (0 : ℚ) ≤ literal binary64 0.6 ∧ literal binary64 0.6 < 1 ∧ ((2 : Nat) : Int) ≤ INT_MAX ∧
      (distributeInt binary64 (values (List.replicate 2 (literal binary64 0.6)))
          ((values (List.replicate 2 (literal binary64 0.6))).length + 1) 0
          (List.replicate slots []) =
          some ((List.range slots).map fun k : Nat =>
            if bucket_index binary64 (literal binary64 0.6) = (k : Int)
            then List.replicate 2 (literal binary64 0.6) else []) ∧
        (0 ≤ bucket_index binary64 (literal binary64 0.6) ∧
          bucket_index binary64 (literal binary64 0.6) ≤ 9) ∧
        bucket_index binary64 (literal binary64 0.6) =
          ⌊roundNearestEven binary64 (literal binary64 0.6 * 10)⌋ ∧
        (bucket_index binary64 (literal binary64 0.6) = ⌊literal binary64 0.6 * 10⌋ ∨
          bucket_index binary64 (literal binary64 0.6) = ⌊literal binary64 0.6 * 10⌋ + 1) ∧
        BucketSortInt .double (values (List.replicate 2 (literal binary64 0.6))) =
          .returned (values (List.replicate 2 (literal binary64 0.6)))) :=
  ⟨rfl, by decide!, by decide!, by decide!, by decide,
    BucketSortInt_all_equal .double binary64 rfl (literal binary64 0.6) 2 (by decide!)
      (by decide!) (by decide!) (by decide)⟩

/-- C18: for every valid array of `float` or `double` of length `N ≤ 2 ^ 31 - 1` the sizes of
the ten buckets after the partition loop sum to `N`; the write-back loops then write at
`index = 0, 1, ..., N - 1`, each position once and none past the end of the array, and end with
`index = N`.  On the `float` array of `N = 2 ^ 31 + 1` elements that holds `0.5` at the
positions `0 .. 2 ^ 31 - 1` and `0.25` at the last position, the `int` counter `i` wraps before
the last element: the sizes of the buckets sum to `2 ^ 31`, the writes are at
`index = 0 .. 2 ^ 31 - 1`, the last position is not written, and `index` ends as `-2 ^ 31`. -/
theorem writeBackInt_counter :
    (∀ (T : ElemType) (f : Format), floatFormat T = some f → ∀ array : List ℚ,
      ValidArray f array → (array.length : Int) ≤ INT_MAX →
      ∃ buckets result, distributeInt f (values array) ((values array).length + 1) 0
          (List.replicate slots []) = some buckets ∧
        buckets.length = slots ∧ (buckets.map List.length).sum = array.length ∧
        writeBackInt buckets (values array, 0, []) =
          some (values result, (array.length : Int),
            (List.range array.length).map Int.ofNat) ∧
        (∀ index ∈ (List.range array.length).map Int.ofNat,
          0 ≤ index ∧ index < (array.length : Int)) ∧
        BucketSortInt T (values array) = .returned (values result)) ∧
      (List.replicate 2147483648 (1 / 2) ++ [(1 / 4 : ℚ)]).length = 2147483649 ∧
      distributeInt binary32 (values (List.replicate 2147483648 (1 / 2) ++ [1 / 4]))
          ((values (List.replicate 2147483648 (1 / 2) ++ [1 / 4])).length + 1) 0
          (List.replicate slots []) =
        some [[], [], [], [], [], List.replicate 2147483648 (1 / 2), [], [], [], []] ∧
      (([[], [], [], [], [], List.replicate 2147483648 (1 / 2), [], [], [], []] :
          List (List ℚ)).map List.length).sum = 2147483648 ∧
      writeBackInt [[], [], [], [], [], List.replicate 2147483648 (1 / 2), [], [], [], []]
          (values (List.replicate 2147483648 (1 / 2) ++ [1 / 4]), 0, []) =
        some (values (List.replicate 2147483648 (1 / 2) ++ [1 / 4]), -2147483648,
          (List.range' 0 2147483648).map Int.ofNat) := by
  have hover := BucketSortInt_overflow (T := .float) (f := binary32) (v := 1 / 2) (t := [1 / 4])
    rfl (by decide!) (by decide!) (by decide!) (by decide!) (by decide)
  rw [buckets_of_index_five (by decide!)] at hover
  refine ⟨fun T f hT array h hN => ?_, ?_, hover.1, ?_, hover.2.1⟩
  · obtain ⟨hd, hw, hr⟩ := BucketSortInt_run_small hT h hN
    refine ⟨_, _, hd, by simp, ?_, hw, fun index hi => ?_, hr⟩
    · rw [← List.length_flatten]
      exact (flatten_buckets_perm hT h).length_eq
    · obtain ⟨k, hk, rfl⟩ := List.mem_map.mp hi
      have := List.mem_range.mp hk
      simp only [Int.ofNat_eq_coe]
      omega
  · rw [List.length_append, List.length_replicate]
    rfl
  · rw [sum_length_of_index_five, List.length_replicate]

/-- C19: for every valid array of `float` or `double` of at most `2 ^ 31 - 1` elements the
function leaves in the array exactly what sorting the whole array directly would, so that two
such arrays with the same values in any order give the same result.  On the `float` array of
`2 ^ 31 + 1` elements that holds `0.5` at the positions `0 .. 2 ^ 31 - 1` and `0.25` at the last
position, the `int` counter `i` wraps before the last element: the function returns the array
as it was, which is not the sorted array, and it returns another array when `0.25` is at the
first position instead. -/
theorem BucketSortInt_eq_sortWholeArray :
    (∀ (T : ElemType) (f : Format), floatFormat T = some f → ∀ array : List ℚ,
      ValidArray f array → (array.length : Int) ≤ INT_MAX →
      BucketSortInt T (values array) = .returned (values (sortWholeArray array)) ∧
      ∀ array' : List ℚ, array'.Perm array →
        BucketSortInt T (values array') = BucketSortInt T (values array)) ∧
      BucketSortInt .float (values (List.replicate 2147483648 (1 / 2) ++ [1 / 4])) =
        .returned (values (List.replicate 2147483648 (1 / 2) ++ [1 / 4])) ∧
      List.replicate 2147483648 (1 / 2) ++ [1 / 4] ≠
        sortWholeArray (List.replicate 2147483648 (1 / 2) ++ [1 / 4]) ∧
      ((1 / 4 : ℚ) :: List.replicate 2147483648 (1 / 2)).Perm
        (List.replicate 2147483648 (1 / 2) ++ [1 / 4]) ∧
      BucketSortInt .float (values (1 / 4 :: List.replicate 2147483648 (1 / 2))) ≠
        BucketSortInt .float (values (List.replicate 2147483648 (1 / 2) ++ [1 / 4])) := by
  have hover := (BucketSortInt_overflow (T := .float) (f := binary32) (v := 1 / 2)
    (t := [1 / 4]) rfl (by decide!) (by decide!) (by decide!) (by decide!) (by decide)).2.2
  have hnot : ¬ (List.replicate 2147483648 (1 / 2) ++ [(1 / 4 : ℚ)]).Sorted (· ≤ ·) := fun hs =>
    not_nonDecreasing_append (mem_replicate_two_pow_31 _) (by decide!) []
      ((nonDecreasing_iff_sorted _).mpr hs)
  have hperm : (1 / 4 :: List.replicate 2147483648 (1 / 2 : ℚ)).Perm
      (List.replicate 2147483648 (1 / 2) ++ [1 / 4]) :=
    (List.perm_append_singleton _ _).symm
  have hsorted : (1 / 4 :: List.replicate 2147483648 (1 / 2 : ℚ)).Sorted (· ≤ ·) := by
    refine List.Pairwise.cons (fun y hy => ?_) (List.pairwise_replicate.mpr (Or.inr le_rfl))
    rw [List.eq_of_mem_replicate hy]
    decide!
  have hvalid : ValidArray binary32 (List.replicate 2147483648 (1 / 2) ++ [1 / 4]) :=
    validArray_append (validArray_replicate (by decide!) (by decide!) (by decide!) _)
      (by decide!)
  have hfirst := BucketSortInt_sorted (T := .float) rfl (validArray_of_perm hperm hvalid)
    (by rw [List.length_cons, List.length_replicate]; decide) hsorted
  refine ⟨fun T f hT array h hN => ⟨(BucketSortInt_run_small hT h hN).2.2, fun a' hp => ?_⟩,
    hover, fun h => hnot ?_, hperm, ?_⟩
  · have hN' : (a'.length : Int) ≤ INT_MAX := by
      rw [hp.length_eq]
      exact hN
    rw [(BucketSortInt_run_small hT h hN).2.2,
      (BucketSortInt_run_small hT (validArray_of_perm hp h) hN').2.2]
    congr 2
    exact (sortBucket_unique (sortBucket_sorted a') ((sortBucket_perm a').trans hp))
  · rw [h]
    exact sortBucket_sorted _
  · rw [hfirst, hover]
    intro h
    rw [← values_injective (OutcomeInt.returned.inj h)] at hnot
    exact hnot hsorted

end algorithm.sorting
